import Mathlib

/-!
# Verification of the BlockChain repository core

A shallow embedding of the ledger engine: the Merkle accumulator
(`src/utils/merkleTree.js`), the Bloom membership filter
(`src/utils/bloomFilter.js`), the two transaction models
(`src/models/transaction.js`, `src/models/enhancedTransaction.js`), the two
block models (`src/models/block.js`, the `EnhancedBlock` model) and the two
ledgers (`src/blockchain.js`, `src/enhancedBlockchain.js`).

JavaScript `Map` objects are embedded as insertion-ordered association
lists (`jsGet`/`jsSet`/`jsDelete`), numbers used as non-negative integral
amounts as `Nat`, balances (which arithmetic can drive negative) as `Int`,
nullable strings as `Option String`.  SHA-256 — an external primitive — is
an abstract parameter `HashEnv.sha256`; everything built on top of it
(double hashing, tree building, block serialisation, the proof-of-work
loop) is embedded concretely.
-/

/-- The all-zero "system" sender address used for miner rewards. -/
def systemAddress : String := "0x0000000000000000000000000000000000000000"

/-- Abstract cryptographic environment: `sha256` is the external hash
primitive; `bloomHash item i` is the integer `parseInt(sha256(item + i)
.substring(0, 8), 16)` the Bloom filter derives before taking the modulus. -/
structure HashEnv where
  sha256 : String → String
  bloomHash : String → Nat → Nat

/-- `CryptoUtils.doubleSha256`: hash of the hash. -/
def doubleSha256 (env : HashEnv) (data : String) : String :=
  env.sha256 (env.sha256 data)

/-- `'0'.repeat(n)` — the proof-of-work target prefix (also the genesis
previous-hash sentinel). -/
def zeroString (n : Nat) : String :=
  String.mk (List.replicate n '0')

/-- `s.startsWith(pre)` on JavaScript strings. -/
def strBeginsWith (pre s : String) : Bool :=
  pre.data.isPrefixOf s.data

/-- JavaScript string coercion of a nullable string (`null` prints as
`"null"`, e.g. inside `JSON.stringify` or string concatenation). -/
def jsonStr : Option String → String
  | none => "null"
  | some s => "\"" ++ s ++ "\""

/-- String coercion used when a possibly-null value is concatenated. -/
def jsCoerce : Option String → String
  | none => "null"
  | some s => s

/-! ## JavaScript `Map` as an insertion-ordered association list -/

/-- `Map.get(k)` — first entry with the key (keys are unique in a real
`Map`; our operations preserve that). -/
def jsGet {κ β : Type} [BEq κ] (m : List (κ × β)) (k : κ) : Option β :=
  (m.find? (fun p => p.1 == k)).map (fun p => p.2)

/-- `Map.has(k)`. -/
def jsHas {κ β : Type} [BEq κ] (m : List (κ × β)) (k : κ) : Bool :=
  (jsGet m k).isSome

/-- `Map.set(k, v)` — replace in place when present, append when new. -/
def jsSet {κ β : Type} [BEq κ] (m : List (κ × β)) (k : κ) (v : β) : List (κ × β) :=
  if jsHas m k then
    m.map (fun p => if p.1 == k then (k, v) else p)
  else
    m ++ [(k, v)]

/-- `Map.delete(k)`. -/
def jsDelete {κ β : Type} [BEq κ] (m : List (κ × β)) (k : κ) : List (κ × β) :=
  m.filter (fun p => !(p.1 == k))

/-- The keys of the map, in order. -/
def jsKeys {κ β : Type} (m : List (κ × β)) : List κ :=
  m.map Prod.fst

/-- Well-formedness of the embedding of a `Map`: unique keys. -/
def NodupKeys {κ β : Type} (m : List (κ × β)) : Prop :=
  (jsKeys m).Nodup

/-- Sum of all values of an integer-valued map (total of all balances). -/
def mapSum {κ : Type} (m : List (κ × Int)) : Int :=
  (m.map (fun p => p.2)).sum

/-! ## The proof-of-work search loop (`mine(maxAttempts)`)

`ok n` is "the hash of the block serialisation at nonce `start + n` meets
the difficulty target"; the loop returns the first successful attempt. -/

/-- Fuel-indexed nonce search; `mineSearchAux ok n fuel` scans attempts
`n, n+1, …, n+fuel-1` and returns the first one `ok` accepts. -/
def mineSearchAux (ok : Nat → Bool) : Nat → Nat → Option Nat
  | _, 0 => none
  | n, fuel + 1 => if ok n then some n else mineSearchAux ok (n + 1) fuel

/-- The mining loop: first successful attempt among `maxAttempts` tries. -/
def mineSearch (ok : Nat → Bool) (maxAttempts : Nat) : Option Nat :=
  mineSearchAux ok 0 maxAttempts

/-! ## MerkleTree (`src/utils/merkleTree.js`)

The tree is the list of levels, level 0 being the leaves, the last level
the root.  `H` is the hashing function applied to the concatenation of a
pair (`CryptoUtils.doubleSha256` in the basic tree, plain SHA-256 in the
enhanced one — both abstract here). -/

namespace MerkleTree

/-- One step of `_buildTree`: hash the current level pairwise; an odd node
at the end is paired with itself. -/
def nextLevel (H : String → String) : List String → List String
  | [] => []
  | [a] => [H (a ++ a)]
  | a :: b :: rest => H (a ++ b) :: nextLevel H rest

/-- The `while (currentLevel.length > 1)` loop, fuelled (each round at
least halves the level, so `lvl.length` rounds always suffice). -/
def buildLevelsAux (H : String → String) : Nat → List String → List (List String)
  | 0, lvl => [lvl]
  | fuel + 1, lvl =>
    if lvl.length ≤ 1 then [lvl]
    else lvl :: buildLevelsAux H fuel (nextLevel H lvl)

/-- All levels of the tree over a non-empty leaf list. -/
def buildLevels (H : String → String) (lvl : List String) : List (List String) :=
  buildLevelsAux H lvl.length lvl

/-- `_buildTree(transactions)`: empty input gives the empty tree. -/
def buildTree (H : String → String) (leaves : List String) : List (List String) :=
  match leaves with
  | [] => []
  | l => buildLevels H l

/-- `this.root`: `tree[tree.length - 1][0]`, `null` for the empty tree. -/
def getRoot (tree : List (List String)) : Option String :=
  match tree.getLast? with
  | none => none
  | some lvl => lvl.head?

/-- A Merkle proof: `path[i]` is "the current node is a right child at
level `i`", `siblings[i]` the sibling hash recorded there.  A sibling read
past the end of a level is JavaScript `undefined`, which string-concatenates
as `"undefined"`; we record that coerced form directly. -/
structure MerkleProof where
  path : List Bool
  siblings : List String
deriving Repr, DecidableEq

/-- The index walk of `getProof`: at each level record the side and the
sibling (`tree[level][siblingIndex]`, `"undefined"` when out of range),
then move to `index / 2`. -/
def proofLoop : Nat → List (List String) → List Bool × List String
  | _, [] => ([], [])
  | idx, lvl :: rest =>
    let isRight := idx % 2 == 1
    let sibIdx := if isRight then idx - 1 else idx + 1
    let sib := (lvl.get? sibIdx).getD "undefined"
    let pr := proofLoop (idx / 2) rest
    (isRight :: pr.1, sib :: pr.2)

/-- `getProof(transactionHash)`: `null` for the empty tree or an absent
leaf; otherwise walk from the first occurrence of the leaf up to (but not
including) the root level. -/
def getProof (tree : List (List String)) (x : String) : Option MerkleProof :=
  match tree with
  | [] => none
  | lvl0 :: _ =>
    match lvl0.findIdx? (fun h => h == x) with
    | none => none
    | some idx =>
      let pr := proofLoop idx tree.dropLast
      some ⟨pr.1, pr.2⟩

/-- The recombination loop of `verifyProof`: fold the recorded siblings
into the running hash, concatenating on the recorded side (a missing
sibling reads as `undefined`, coerced to `"undefined"`). -/
def verifyLoop (H : String → String) : String → List Bool → List String → String
  | cur, [], _ => cur
  | cur, isRightStep :: ps, sibs =>
    let sib := sibs.head?.getD "undefined"
    verifyLoop H (if isRightStep then H (sib ++ cur) else H (cur ++ sib)) ps sibs.tail

/-- `MerkleTree.verifyProof(transactionHash, proof, root)`: recombine and
compare with the expected root (`null` roots never match a string). -/
def verifyProof (H : String → String) (x : String) (proof : MerkleProof)
    (root : Option String) : Bool :=
  some (verifyLoop H x proof.path proof.siblings) == root

end MerkleTree

/-! ## BloomFilter (`src/utils/bloomFilter.js`)

Bits are JavaScript numbers 0/1 in a fixed array; `mightContain` returns
`false` exactly when some probed position holds `0` (an out-of-range read
is `undefined`, which is not `=== 0`). -/

structure BloomFilter where
  size : Nat
  hashCount : Nat
  bitArray : List Nat
  itemCount : Nat
deriving Repr, DecidableEq

namespace BloomFilter

/-- `new BloomFilter(size, hashCount)`. -/
def mk0 (size hashCount : Nat) : BloomFilter :=
  { size := size, hashCount := hashCount,
    bitArray := List.replicate size 0, itemCount := 0 }

/-- `_getHashes(item)`: the `hashCount` probe positions, each the abstract
integer hash reduced modulo the array size. -/
def getHashes (env : HashEnv) (f : BloomFilter) (item : String) : List Nat :=
  (List.range f.hashCount).map (fun i => env.bloomHash item i % f.size)

/-- `add(item)`: set every probed bit to 1, count the insertion. -/
def add (env : HashEnv) (f : BloomFilter) (item : String) : BloomFilter :=
  { f with
    bitArray := (getHashes env f item).foldl (fun arr h => arr.set h 1) f.bitArray,
    itemCount := f.itemCount + 1 }

/-- `mightContain(item)`: `false` iff some probed position reads `0`. -/
def mightContain (env : HashEnv) (f : BloomFilter) (item : String) : Bool :=
  (getHashes env f item).all (fun h => !((f.bitArray.get? h).getD 1 == 0))

end BloomFilter

/-! ## Transaction (`src/models/transaction.js`)

The EIP-1559-style transaction of the basic chain.  Fee and gas fields are
the non-negative integral amounts the repository uses; `hash` and
`signature` are `null` until `sign()` runs (transactions built without a
private key — such as the miner-reward transaction — keep them `null`). -/

structure Transaction where
  fromAddr : String
  toAddr : String
  value : Nat
  gasLimit : Nat
  maxPriorityFeePerGas : Nat
  maxFeePerGas : Nat
  nonce : Nat
  hash : Option String
  signature : Option String
deriving Repr, DecidableEq

namespace Transaction

/-- `getEffectiveGasPrice(baseFeePerGas)`:
`baseFee + min(maxPriorityFeePerGas, maxFeePerGas - baseFee)` with
JavaScript signed arithmetic. -/
def getEffectiveGasPrice (tx : Transaction) (baseFeePerGas : Nat) : Int :=
  let priorityFeePerGas : Int :=
    min (tx.maxPriorityFeePerGas : Int) ((tx.maxFeePerGas : Int) - (baseFeePerGas : Int))
  (baseFeePerGas : Int) + priorityFeePerGas

/-- `getGasCost(baseFeePerGas) = gasLimit * effectiveGasPrice`. -/
def getGasCost (tx : Transaction) (baseFeePerGas : Nat) : Int :=
  (tx.gasLimit : Int) * tx.getEffectiveGasPrice baseFeePerGas

/-- `isValidForBaseFee(baseFeePerGas)`. -/
def isValidForBaseFee (tx : Transaction) (baseFeePerGas : Nat) : Bool :=
  let eff := tx.getEffectiveGasPrice baseFeePerGas
  decide (eff ≤ (tx.maxFeePerGas : Int)) && decide ((baseFeePerGas : Int) ≤ eff)

/-- `getPriority(baseFeePerGas) = effectiveGasPrice - baseFee`. -/
def getPriority (tx : Transaction) (baseFeePerGas : Nat) : Int :=
  tx.getEffectiveGasPrice baseFeePerGas - (baseFeePerGas : Int)

end Transaction

/-! ## Block (`src/models/block.js`) -/

structure Block where
  index : Nat
  previousHash : Option String
  transactions : List Transaction
  timestamp : Nat
  difficulty : Nat
  baseFeePerGas : Nat
  nonce : Nat
  hash : Option String
  merkleRoot : Option String
deriving Repr, DecidableEq

namespace Block

/-- The Merkle leaf a transaction contributes: `tx.hash`, with the `null`
hash of an unsigned transaction turned by the tree builder into
`doubleSha256(JSON.stringify(null)) = doubleSha256("null")`. -/
def txLeaf (env : HashEnv) (tx : Transaction) : String :=
  match tx.hash with
  | some h => h
  | none => doubleSha256 env "null"

/-- `_calculateMerkleRoot()`: the root of the tree over the ordered
transaction hashes. -/
def computeMerkleRoot (env : HashEnv) (txs : List Transaction) : Option String :=
  MerkleTree.getRoot (MerkleTree.buildTree (doubleSha256 env) (txs.map (txLeaf env)))

/-- The `new Block(params)` constructor: nonce 0, no hash yet, Merkle root
computed from the transactions. -/
def build (env : HashEnv) (index : Nat) (previousHash : Option String)
    (transactions : List Transaction) (timestamp difficulty baseFeePerGas : Nat) : Block :=
  { index := index, previousHash := previousHash, transactions := transactions,
    timestamp := timestamp, difficulty := difficulty, baseFeePerGas := baseFeePerGas,
    nonce := 0, hash := none,
    merkleRoot := computeMerkleRoot env transactions }

/-- `getBlockData()` at an explicit nonce: the `JSON.stringify` of the
header fields in source order. -/
def getBlockData (b : Block) (nonce : Nat) : String :=
  "\x7b\"index\":" ++ toString b.index ++
  ",\"previousHash\":" ++ jsonStr b.previousHash ++
  ",\"merkleRoot\":" ++ jsonStr b.merkleRoot ++
  ",\"timestamp\":" ++ toString b.timestamp ++
  ",\"difficulty\":" ++ toString b.difficulty ++
  ",\"baseFeePerGas\":" ++ toString b.baseFeePerGas ++
  ",\"nonce\":" ++ toString nonce ++ "\x7d"

/-- Does the double-SHA-256 of the serialisation at this nonce meet the
difficulty target (that many leading `'0'` characters)? -/
def powOk (env : HashEnv) (b : Block) (nonce : Nat) : Bool :=
  strBeginsWith (zeroString b.difficulty) (doubleSha256 env (b.getBlockData nonce))

/-- `mine(maxAttempts)` (default budget 1000000): search nonces upward
from the current one; on success store the winning nonce and hash; on
failure the loop leaves the last attempted hash and the incremented nonce
behind (the caller discards the block). -/
def mine (env : HashEnv) (b : Block) (maxAttempts : Nat) : Bool × Block :=
  match mineSearch (fun i => powOk env b (b.nonce + i)) maxAttempts with
  | some i =>
    (true, { b with nonce := b.nonce + i,
                    hash := some (doubleSha256 env (b.getBlockData (b.nonce + i))) })
  | none =>
    (false, { b with nonce := b.nonce + maxAttempts,
                     hash := if maxAttempts = 0 then b.hash
                             else some (doubleSha256 env (b.getBlockData (b.nonce + maxAttempts - 1))) })

/-- `verifyHash()`: recompute the digest from the current fields and
compare with the stored hash. -/
def verifyHash (env : HashEnv) (b : Block) : Bool :=
  b.hash == some (doubleSha256 env (b.getBlockData b.nonce))

/-- `verifyProofOfWork()`. -/
def verifyProofOfWork (b : Block) : Bool :=
  match b.hash with
  | none => false
  | some h => strBeginsWith (zeroString b.difficulty) h

/-- `verifyMerkleRoot()`. -/
def verifyMerkleRoot (env : HashEnv) (b : Block) : Bool :=
  computeMerkleRoot env b.transactions == b.merkleRoot

/-- `addTransaction(transaction)`: push and recompute the Merkle root —
the stored hash and nonce are left untouched. -/
def addTransaction (env : HashEnv) (b : Block) (tx : Transaction) : Block :=
  { b with transactions := b.transactions ++ [tx],
           merkleRoot := computeMerkleRoot env (b.transactions ++ [tx]) }

/-- `getTotalGasUsed()`: sum of the transactions' gas limits. -/
def getTotalGasUsed (b : Block) : Nat :=
  (b.transactions.map (fun tx => tx.gasLimit)).sum

/-- `calculateNextBaseFee(targetGasUsed)` — the EIP-1559 style additive
adjustment (double `Nat` division is exactly the single
`Math.floor` of the real quotient). -/
def calculateNextBaseFee (b : Block) (targetGasUsed : Nat) : Nat :=
  let gasUsed := b.getTotalGasUsed
  let currentBaseFee := b.baseFeePerGas
  if gasUsed = targetGasUsed then currentBaseFee
  else if gasUsed > targetGasUsed then
    currentBaseFee + currentBaseFee * (gasUsed - targetGasUsed) / targetGasUsed / 8
  else
    currentBaseFee - currentBaseFee * (targetGasUsed - gasUsed) / targetGasUsed / 8

end Block

/-! ## Blockchain (`src/blockchain.js`)

The basic ledger.  Transaction serialised byte size
(`Buffer.byteLength(JSON.stringify(tx.toJSON()))`) is an abstract
measure `szf`.  The comparator sort of `_selectTransactionsForBlock` is
embedded as an insertion sort by descending priority (the claims proved
below do not depend on the order among equal priorities). -/

/-- Insertion into a list sorted by the boolean "comes no later than". -/
def insertSorted {α : Type} (le : α → α → Bool) (x : α) : List α → List α
  | [] => [x]
  | y :: ys => if le x y then x :: y :: ys else y :: insertSorted le x ys

/-- Comparator sort. -/
def sortByBool {α : Type} (le : α → α → Bool) : List α → List α
  | [] => []
  | x :: xs => insertSorted le x (sortByBool le xs)

structure Blockchain where
  chain : List Block
  pendingTransactions : List Transaction
  mempool : List (Option String × Transaction)
  utxoSet : List (String × Int)
  difficulty : Nat
  miningReward : Nat
  maxBlockSize : Nat
  maxTransactionsPerBlock : Nat
  baseFeePerGas : Nat
  targetGasUsed : Nat
  bloomFilter : BloomFilter
deriving Repr, DecidableEq

namespace Blockchain

/-- A placeholder block (JavaScript would read `undefined` fields; the
chain is never empty, so this default is never reached). -/
def dummyBlock : Block :=
  { index := 0, previousHash := none, transactions := [], timestamp := 0,
    difficulty := 0, baseFeePerGas := 0, nonce := 0, hash := none, merkleRoot := none }

/-- `new Blockchain(config)`: configuration fields resolved, a
1024/3 Bloom filter, and the genesis block mined (and pushed whether or
not the nonce search succeeded within the budget). -/
def init (env : HashEnv) (difficulty miningReward maxBlockSize
    maxTransactionsPerBlock baseFeePerGas targetGasUsed now : Nat) : Blockchain :=
  let genesis := Block.build env 0 (some (zeroString 64)) [] now difficulty baseFeePerGas
  { chain := [(Block.mine env genesis 1000000).2],
    pendingTransactions := [], mempool := [], utxoSet := [],
    difficulty := difficulty, miningReward := miningReward,
    maxBlockSize := maxBlockSize, maxTransactionsPerBlock := maxTransactionsPerBlock,
    baseFeePerGas := baseFeePerGas, targetGasUsed := targetGasUsed,
    bloomFilter := BloomFilter.mk0 1024 3 }

/-- `getLatestBlock()`. -/
def getLatestBlock (s : Blockchain) : Block :=
  s.chain.getLastD dummyBlock

/-- `getBalance(address)`: the stored balance, `0` for an unknown address. -/
def getBalance (s : Blockchain) (address : String) : Int :=
  (jsGet s.utxoSet address).getD 0

/-- `_validateTransaction(transaction)`: signed, affordable, and (when a
base fee is configured) priced at or above it. -/
def validateTransaction (s : Blockchain) (tx : Transaction) : Bool :=
  tx.signature.isSome &&
  decide ((tx.value : Int) + tx.getGasCost s.baseFeePerGas ≤ s.getBalance tx.fromAddr) &&
  (!(decide (0 < s.baseFeePerGas)) || tx.isValidForBaseFee s.baseFeePerGas)

/-- `addTransaction(transaction)`: validate, reject mempool duplicates,
then insert into the mempool and pending list and index the hash in the
Bloom filter. -/
def addTransaction (env : HashEnv) (s : Blockchain) (tx : Transaction) :
    Bool × Blockchain :=
  if !(validateTransaction s tx) then (false, s)
  else if jsHas s.mempool tx.hash then (false, s)
  else
    (true, { s with
      mempool := jsSet s.mempool tx.hash tx,
      pendingTransactions := s.pendingTransactions ++ [tx],
      bloomFilter := BloomFilter.add env s.bloomFilter (jsCoerce tx.hash) })

/-- One step of the greedy selection loop of
`_selectTransactionsForBlock`: keep the candidate if the byte-size, gas
and count budgets all still hold, otherwise skip it (the loop does not
stop). -/
def selectStep (szf : Transaction → Nat) (s : Blockchain)
    (acc : List Transaction × Nat × Nat) (tx : Transaction) :
    List Transaction × Nat × Nat :=
  let txSize := szf tx
  let gasUsed := tx.gasLimit
  if acc.2.1 + txSize ≤ s.maxBlockSize ∧ acc.2.2 + gasUsed ≤ s.targetGasUsed ∧
      acc.1.length < s.maxTransactionsPerBlock then
    (acc.1 ++ [tx], acc.2.1 + txSize, acc.2.2 + gasUsed)
  else acc

/-- `_selectTransactionsForBlock()`: mempool values sorted by descending
priority, then greedily kept under the byte-size, gas and count budgets. -/
def selectTransactionsForBlock (szf : Transaction → Nat)
    (s : Blockchain) : List Transaction :=
  let sorted := sortByBool
    (fun a b => decide (b.getPriority s.baseFeePerGas ≤ a.getPriority s.baseFeePerGas))
    (s.mempool.map (fun p => p.2))
  (sorted.foldl (selectStep szf s) ([], 0, 0)).1

/-- The transactions `mineBlock` puts in the candidate block (empty when
the pending list is empty). -/
def selectedTxs (szf : Transaction → Nat) (s : Blockchain) :
    List Transaction :=
  if 0 < s.pendingTransactions.length then selectTransactionsForBlock szf s else []

/-- The candidate block `mineBlock` assembles before the nonce search. -/
def candidateBlock (env : HashEnv) (szf : Transaction → Nat) (s : Blockchain)
    (now : Nat) : Block :=
  let latest := s.getLatestBlock
  Block.build env (latest.index + 1) latest.hash (selectedTxs szf s) now
    s.difficulty (latest.calculateNextBaseFee s.targetGasUsed)

/-- The mining attempt on the candidate (the hard-coded 1000000-attempt
budget of `mine()`). -/
def minedCandidate (env : HashEnv) (szf : Transaction → Nat) (s : Blockchain)
    (now : Nat) : Bool × Block :=
  Block.mine env (candidateBlock env szf s now) 1000000

/-- The unsigned miner-reward transaction (`hash` and `signature` stay
`null` — no private key is supplied). -/
def rewardTransaction (minerAddress : String) (miningReward : Nat) : Transaction :=
  { fromAddr := systemAddress, toAddr := minerAddress, value := miningReward,
    gasLimit := 0, maxPriorityFeePerGas := 0, maxFeePerGas := 0, nonce := 0,
    hash := none, signature := none }

/-- `_validateBlock(block)`: sequence number, previous-hash linkage,
proof-of-work, stored hash and Merkle root. -/
def validateBlock (env : HashEnv) (s : Blockchain) (block : Block) : Bool :=
  let latest := s.getLatestBlock
  decide (block.index = latest.index + 1) &&
  (block.previousHash == latest.hash) &&
  block.verifyProofOfWork &&
  Block.verifyHash env block &&
  Block.verifyMerkleRoot env block

/-- `_updateUTXOSet(block)`: debit each non-system sender by
`value + gasCost(block.baseFeePerGas)` and credit each recipient by
`value`, in transaction order. -/
def updateUTXOSet (utxo : List (String × Int)) (block : Block) : List (String × Int) :=
  block.transactions.foldl
    (fun u tx =>
      let u1 := if tx.fromAddr == systemAddress then u
        else jsSet u tx.fromAddr
          ((jsGet u tx.fromAddr).getD 0 - ((tx.value : Int) + tx.getGasCost block.baseFeePerGas))
      jsSet u1 tx.toAddr ((jsGet u1 tx.toAddr).getD 0 + (tx.value : Int)))
    utxo

/-- `_removeMinedTransactions(minedTransactions)`: drop each mined hash
from the mempool and the first matching entry from the pending list. -/
def removeMined (mempool : List (Option String × Transaction))
    (pending : List Transaction) (mined : List Transaction) :
    List (Option String × Transaction) × List Transaction :=
  mined.foldl
    (fun acc tx => (jsDelete acc.1 tx.hash, acc.2.eraseP (fun t => t.hash == tx.hash)))
    (mempool, pending)

/-- `mineBlock(minerAddress)`: assemble and mine a candidate; on success
append the reward transaction (recomputing the Merkle root under the
already-fixed hash), offer the block to `addBlock` (whose verdict is
ignored), rewrite the balance map and evict the mined transactions; on
failure return `null` with the ledger untouched. -/
def mineBlock (env : HashEnv) (szf : Transaction → Nat) (s : Blockchain)
    (minerAddress : String) (now : Nat) : Option Block × Blockchain :=
  let mined := minedCandidate env szf s now
  if mined.1 then
    let finalBlock := Block.addTransaction env mined.2 (rewardTransaction minerAddress s.miningReward)
    let chain' := if validateBlock env s finalBlock then s.chain ++ [finalBlock] else s.chain
    let utxo' := updateUTXOSet s.utxoSet finalBlock
    let removed := if 0 < s.pendingTransactions.length then
        removeMined s.mempool s.pendingTransactions (selectedTxs szf s)
      else (s.mempool, s.pendingTransactions)
    (some finalBlock,
     { s with chain := chain', utxoSet := utxo',
              mempool := removed.1, pendingTransactions := removed.2 })
  else (none, s)

end Blockchain

/-! ## EnhancedTransaction (`src/models/enhancedTransaction.js`)

A value transfer with the simplified two-part fee; `totalCost` is set by
the constructor to `value + baseFee + priorityFee`.  The constructor
always assigns a content hash (signing or the witness hash), so `hash` is
a plain string here; `witnessHash` and `witness` stay nullable. -/

structure EnhancedTransaction where
  fromAddr : String
  toAddr : String
  value : Nat
  baseFee : Nat
  priorityFee : Nat
  nonce : Nat
  hash : String
  witnessHash : Option String
  witness : Option String
deriving Repr, DecidableEq

namespace EnhancedTransaction

/-- `this.totalCost = this.value + this.baseFee + this.priorityFee`. -/
def totalCost (tx : EnhancedTransaction) : Nat :=
  tx.value + tx.baseFee + tx.priorityFee

/-- `validate(balances).isValid`: sufficient balance, positive value and
both addresses present (fee-policy mismatches are warnings only). -/
def validate (balances : List (String × Int)) (tx : EnhancedTransaction) : Bool :=
  decide ((tx.totalCost : Int) ≤ (jsGet balances tx.fromAddr).getD 0) &&
  decide (0 < tx.value) &&
  !(tx.fromAddr == "") && !(tx.toAddr == "")

end EnhancedTransaction

/-! ## EnhancedBlock (the `EnhancedBlock` model)

SegWit-style block: exactly up to 4 transactions, two Merkle roots (full
hashes and witness hashes), fee totals tracked in the header, fixed block
reward 50.  Mining hashes the header with a single SHA-256. -/

structure EnhancedBlock where
  index : Nat
  previousHash : Option String
  transactions : List EnhancedTransaction
  timestamp : Nat
  difficulty : Nat
  minerAddress : String
  witnessData : List (Nat × String)
  witnessMerkleRoot : Option String
  nonce : Nat
  hash : Option String
  merkleRoot : Option String
  totalBaseFees : Nat
  totalPriorityFees : Nat
  blockReward : Nat
deriving Repr, DecidableEq

namespace EnhancedBlock

/-- `_processTransactions` + `_calculateMerkleRoots` applied to a
transaction list: truncate to 4, separate witness data, total the fees and
recompute both Merkle roots.  Header identity, nonce and stored hash are
left as they are. -/
def reprocess (env : HashEnv) (b : EnhancedBlock) (transactions : List EnhancedTransaction) :
    EnhancedBlock :=
  let txs := transactions.take 4
  { b with
    transactions := txs,
    witnessData := txs.enum.filterMap (fun p => p.2.witness.map (fun w => (p.1, w))),
    totalBaseFees := (txs.map (fun tx => tx.baseFee)).sum,
    totalPriorityFees := (txs.map (fun tx => tx.priorityFee)).sum,
    witnessMerkleRoot := MerkleTree.getRoot
      (MerkleTree.buildTree env.sha256 (txs.map (fun tx => tx.witnessHash.getD tx.hash))),
    merkleRoot := MerkleTree.getRoot
      (MerkleTree.buildTree env.sha256 (txs.map (fun tx => tx.hash))) }

/-- The `new EnhancedBlock(params)` constructor. -/
def build (env : HashEnv) (index : Nat) (previousHash : Option String)
    (transactions : List EnhancedTransaction) (timestamp difficulty : Nat)
    (minerAddress : String) : EnhancedBlock :=
  reprocess env
    { index := index, previousHash := previousHash, transactions := [],
      timestamp := timestamp, difficulty := difficulty, minerAddress := minerAddress,
      witnessData := [], witnessMerkleRoot := none, nonce := 0, hash := none,
      merkleRoot := none, totalBaseFees := 0, totalPriorityFees := 0, blockReward := 50 }
    transactions

/-- `getBlockData()` at an explicit nonce (witness data excluded — SegWit). -/
def getBlockData (b : EnhancedBlock) (nonce : Nat) : String :=
  "\x7b\"index\":" ++ toString b.index ++
  ",\"previousHash\":" ++ jsonStr b.previousHash ++
  ",\"witnessMerkleRoot\":" ++ jsonStr b.witnessMerkleRoot ++
  ",\"transactionMerkleRoot\":" ++ jsonStr b.merkleRoot ++
  ",\"timestamp\":" ++ toString b.timestamp ++
  ",\"difficulty\":" ++ toString b.difficulty ++
  ",\"minerAddress\":\"" ++ b.minerAddress ++ "\"" ++
  ",\"nonce\":" ++ toString nonce ++
  ",\"totalBaseFees\":" ++ toString b.totalBaseFees ++
  ",\"totalPriorityFees\":" ++ toString b.totalPriorityFees ++
  ",\"blockReward\":" ++ toString b.blockReward ++ "\x7d"

/-- The proof-of-work test of the enhanced block (single SHA-256). -/
def powOk (env : HashEnv) (b : EnhancedBlock) (nonce : Nat) : Bool :=
  strBeginsWith (zeroString b.difficulty) (env.sha256 (b.getBlockData nonce))

/-- `mine(maxAttempts)` of the enhanced block. -/
def mine (env : HashEnv) (b : EnhancedBlock) (maxAttempts : Nat) : Bool × EnhancedBlock :=
  match mineSearch (fun i => powOk env b (b.nonce + i)) maxAttempts with
  | some i =>
    (true, { b with nonce := b.nonce + i,
                    hash := some (env.sha256 (b.getBlockData (b.nonce + i))) })
  | none =>
    (false, { b with nonce := b.nonce + maxAttempts,
                     hash := if maxAttempts = 0 then b.hash
                             else some (env.sha256 (b.getBlockData (b.nonce + maxAttempts - 1))) })

/-- `addTransaction(transaction)`: refuse a full block, otherwise push and
reprocess. -/
def addTransaction (env : HashEnv) (b : EnhancedBlock) (tx : EnhancedTransaction) :
    Bool × EnhancedBlock :=
  if 4 ≤ b.transactions.length then (false, b)
  else (true, reprocess env b (b.transactions ++ [tx]))

/-- `getFees().totalMinerReward = totalPriorityFees + blockReward`. -/
def totalMinerReward (b : EnhancedBlock) : Nat :=
  b.totalPriorityFees + b.blockReward

end EnhancedBlock

/-! ## EnhancedBlockchain (`src/enhancedBlockchain.js`) -/

structure EnhancedBlockchain where
  chain : List EnhancedBlock
  pendingTransactions : List EnhancedTransaction
  mempool : List (String × EnhancedTransaction)
  balances : List (String × Int)
  nonces : List (String × Nat)
  difficulty : Nat
  blockReward : Nat
  maxTransactionsPerBlock : Nat
  bloomFilter : BloomFilter
  merkleLeaves : List String
  totalCoinsBurned : Nat
  totalCoinsMined : Nat
  totalCoinsInNetwork : Int
deriving Repr, DecidableEq

namespace EnhancedBlockchain

/-- The ten pre-funded wallet addresses of `_initializeWallets`. -/
def walletAddresses : List String :=
  [ "0x1111111111111111111111111111111111111111",
    "0x2222222222222222222222222222222222222222",
    "0x3333333333333333333333333333333333333333",
    "0x4444444444444444444444444444444444444444",
    "0x5555555555555555555555555555555555555555",
    "0x6666666666666666666666666666666666666666",
    "0x7777777777777777777777777777777777777777",
    "0x8888888888888888888888888888888888888888",
    "0x9999999999999999999999999999999999999999",
    "0xaaaaaaaaaaaaaaaaaaaaaaaaaaaaaaaaaaaaaaaa" ]

/-- A placeholder enhanced block (the chain is never empty). -/
def dummyEBlock : EnhancedBlock :=
  { index := 0, previousHash := none, transactions := [], timestamp := 0,
    difficulty := 0, minerAddress := "", witnessData := [], witnessMerkleRoot := none,
    nonce := 0, hash := none, merkleRoot := none, totalBaseFees := 0,
    totalPriorityFees := 0, blockReward := 50 }

/-- `getLatestBlock()`. -/
def getLatestBlock (s : EnhancedBlockchain) : EnhancedBlock :=
  s.chain.getLastD dummyEBlock

/-- `getBalance(address)`. -/
def getBalance (s : EnhancedBlockchain) (address : String) : Int :=
  (jsGet s.balances address).getD 0

/-- `addTransaction(transaction)`: `validate`, then the strict nonce check
against the tracked value; on success insert into the pending list,
mempool and Bloom filter and advance the tracked nonce by one. -/
def addTransaction (env : HashEnv) (s : EnhancedBlockchain) (tx : EnhancedTransaction) :
    Bool × EnhancedBlockchain :=
  if !(EnhancedTransaction.validate s.balances tx) then (false, s)
  else
    let expectedNonce := (jsGet s.nonces tx.fromAddr).getD 0
    if tx.nonce ≠ expectedNonce then (false, s)
    else
      (true, { s with
        pendingTransactions := s.pendingTransactions ++ [tx],
        mempool := jsSet s.mempool tx.hash tx,
        bloomFilter := BloomFilter.add env s.bloomFilter tx.hash,
        nonces := jsSet s.nonces tx.fromAddr (expectedNonce + 1) })

/-- `new EnhancedBlockchain(config)` up to (and excluding) the external
seed file: ten wallets funded with `initialBalance`, the mined genesis
block, a 4096/5 Bloom filter; the seed transactions are then fed through
`addTransaction` exactly as `_loadInitialTransactions` does. -/
def init (env : HashEnv) (difficulty blockReward initialBalance now : Nat)
    (seed : List EnhancedTransaction) : EnhancedBlockchain :=
  let genesis := EnhancedBlock.build env 0 (some "0") [] now difficulty systemAddress
  let base : EnhancedBlockchain :=
    { chain := [(EnhancedBlock.mine env genesis 1000000).2],
      pendingTransactions := [], mempool := [],
      balances := walletAddresses.map (fun a => (a, (initialBalance : Int))),
      nonces := walletAddresses.map (fun a => (a, 0)),
      difficulty := difficulty, blockReward := blockReward,
      maxTransactionsPerBlock := 4,
      bloomFilter := BloomFilter.mk0 4096 5,
      merkleLeaves := [],
      totalCoinsBurned := 0,
      totalCoinsMined := walletAddresses.length * initialBalance,
      totalCoinsInNetwork := ((walletAddresses.length * initialBalance : Nat) : Int) }
  seed.foldl (fun st tx => (addTransaction env st tx).2) base

/-- `_updateBalances(block)`: per transaction debit the sender by
`totalCost` and credit the recipient by `value`; then credit the miner
with `blockReward + totalPriorityFees`; finally update the mined/burned
supply counters. -/
def updateBalances (s : EnhancedBlockchain) (block : EnhancedBlock) : EnhancedBlockchain :=
  let bal1 := block.transactions.foldl
    (fun bal tx =>
      let bal' := jsSet bal tx.fromAddr
        ((jsGet bal tx.fromAddr).getD 0 - (tx.totalCost : Int))
      jsSet bal' tx.toAddr ((jsGet bal' tx.toAddr).getD 0 + (tx.value : Int)))
    s.balances
  let bal2 := jsSet bal1 block.minerAddress
    ((jsGet bal1 block.minerAddress).getD 0 + (block.totalMinerReward : Int))
  { s with balances := bal2,
           totalCoinsMined := s.totalCoinsMined + block.blockReward,
           totalCoinsBurned := s.totalCoinsBurned + block.totalBaseFees,
           totalCoinsInNetwork :=
             ((s.totalCoinsMined + block.blockReward : Nat) : Int)
               - ((s.totalCoinsBurned + block.totalBaseFees : Nat) : Int) }

/-- `_updateEnhancedFeatures(block)`: feed the mined hashes to the Bloom
filter and append them as leaves of the ledger's Merkle tree. -/
def updateEnhancedFeatures (env : HashEnv) (s : EnhancedBlockchain)
    (block : EnhancedBlock) : EnhancedBlockchain :=
  let hashes := block.transactions.map (fun tx => tx.hash)
  { s with
    bloomFilter := hashes.foldl (BloomFilter.add env) s.bloomFilter,
    merkleLeaves := s.merkleLeaves ++ hashes }

/-- The candidate block `mineBlock` assembles: the first (up to) four
pending transactions, indexed at the current chain length, on the latest
hash. -/
def candidateBlock (env : HashEnv) (s : EnhancedBlockchain) (minerAddress : String)
    (now : Nat) : EnhancedBlock :=
  EnhancedBlock.build env s.chain.length s.getLatestBlock.hash
    (s.pendingTransactions.take s.maxTransactionsPerBlock) now s.difficulty minerAddress

/-- The mining attempt on the candidate. -/
def minedCandidate (env : HashEnv) (s : EnhancedBlockchain) (minerAddress : String)
    (now : Nat) : Bool × EnhancedBlock :=
  EnhancedBlock.mine env (candidateBlock env s minerAddress now) 1000000

/-- `mineBlock(minerAddress)`: on success push the block, update the
balances and the supply counters, evict the mined transactions from the
pending list and mempool, and update the Bloom filter and Merkle tree; on
failure return `null` leaving the state untouched. -/
def mineBlock (env : HashEnv) (s : EnhancedBlockchain) (minerAddress : String)
    (now : Nat) : Option EnhancedBlock × EnhancedBlockchain :=
  let mined := minedCandidate env s minerAddress now
  if mined.1 then
    let selected := s.pendingTransactions.take s.maxTransactionsPerBlock
    let s1 := { s with chain := s.chain ++ [mined.2] }
    let s2 := updateBalances s1 mined.2
    let s3 := { s2 with
      pendingTransactions := selected.foldl
        (fun ps tx => ps.filter (fun t => !(t.hash == tx.hash))) s2.pendingTransactions,
      mempool := selected.foldl (fun mp tx => jsDelete mp tx.hash) s2.mempool }
    (some mined.2, updateEnhancedFeatures env s3 mined.2)
  else (none, s)

/-- A ledger operation: a transaction submission or a mining attempt (with
its wall-clock timestamp). -/
inductive LedgerOp : Type
  | submit (tx : EnhancedTransaction) : LedgerOp
  | mine (minerAddress : String) (now : Nat) : LedgerOp

/-- Run a sequence of ledger operations (return values discarded, exactly
as a driving client would). -/
def runOps (env : HashEnv) (ops : List LedgerOp) (s : EnhancedBlockchain) :
    EnhancedBlockchain :=
  ops.foldl
    (fun st op =>
      match op with
      | LedgerOp.submit tx => (addTransaction env st tx).2
      | LedgerOp.mine miner now => (mineBlock env st miner now).2)
    s

/-- Total burned base fees recorded in the headers of a chain. -/
def chainBurn (chain : List EnhancedBlock) : Nat :=
  (chain.map (fun b => b.totalBaseFees)).sum

end EnhancedBlockchain

/-! ## Concrete instances used by witnesses and counterexamples

`envZ` stands for a hash function on which every nonce wins immediately
(every digest begins with zeros); `envX` for one on which no nonce can
ever win; `hParen` is an injective marker hash for the Merkle theorems. -/

/-- A concrete injective "hash": wrap in parentheses. -/
def hParen (s : String) : String := "(" ++ s ++ ")"

/-- Environment whose digests always begin with `"00"` (so difficulty ≤ 2
succeeds at once for single hashing and difficulty ≤ 4 for double hashing). -/
def envZ : HashEnv :=
  { sha256 := fun s => "00" ++ s, bloomHash := fun s i => s.length + i }

/-- Environment whose digests never begin with `'0'`. -/
def envX : HashEnv :=
  { sha256 := fun _ => "x", bloomHash := fun s i => s.length + i }

/-- Constant transaction-size measure. -/
def szOne : Transaction → Nat := fun _ => 1

/-- A signed zero-value transaction (affordable from an empty account). -/
def txZero : Transaction :=
  { fromAddr := "0xaaaa", toAddr := "0xbbbb", value := 0, gasLimit := 0,
    maxPriorityFeePerGas := 0, maxFeePerGas := 0, nonce := 0,
    hash := some "t1", signature := some "sig1" }

/-- A basic chain at default configuration. -/
def chainB0 : Blockchain :=
  Blockchain.init envZ 4 50 1000000 1000 0 15000000 7

/-- A basic chain configured with at most one transaction per block. -/
def chainBtight : Blockchain :=
  Blockchain.init envZ 4 50 1000000 1 0 15000000 7

/-- The tight chain after admitting `txZero`. -/
def chainBtight1 : Blockchain :=
  (Blockchain.addTransaction envZ chainBtight txZero).2

/-- An enhanced chain at default configuration with no seed transactions. -/
def chainE0 : EnhancedBlockchain :=
  EnhancedBlockchain.init envZ 2 50 300 7 []

/-- A first transaction between the first two pre-funded wallets. -/
def eTxOne : EnhancedTransaction :=
  { fromAddr := "0x1111111111111111111111111111111111111111",
    toAddr := "0x2222222222222222222222222222222222222222",
    value := 10, baseFee := 2, priorityFee := 3, nonce := 0,
    hash := "e1", witnessHash := some "w1", witness := none }

/-- A small Bloom filter instance. -/
def bloomSmall : BloomFilter := BloomFilter.mk0 8 2

/-- A transaction carrying gas for the base-fee computation. -/
def txGas : Transaction :=
  { fromAddr := "0xaaaa", toAddr := "0xbbbb", value := 1, gasLimit := 30,
    maxPriorityFeePerGas := 2, maxFeePerGas := 9, nonce := 0,
    hash := some "tg", signature := some "sg" }

/-- A block whose gas usage (30) can be compared with small targets. -/
def blockGas : Block :=
  { index := 1, previousHash := some "p", transactions := [txGas], timestamp := 3,
    difficulty := 2, baseFeePerGas := 40, nonce := 0, hash := none, merkleRoot := none }

/-- A fee-capped transaction for the effective-gas-price bound. -/
def txFee : Transaction :=
  { fromAddr := "0xaaaa", toAddr := "0xbbbb", value := 5, gasLimit := 21000,
    maxPriorityFeePerGas := 3, maxFeePerGas := 10, nonce := 0,
    hash := some "tf", signature := some "sf" }

/-- What the basic `mineBlock` does on every successful nonce search
(claim C9): the returned block is the mined candidate with the reward
transaction appended after the hash was fixed (Merkle root recomputed),
the balance map and mempool/pending evictions are applied unconditionally,
and the chain is extended only when `_validateBlock` accepts. -/
def MineBlockFrame (env : HashEnv) (szf : Transaction → Nat) (s : Blockchain)
    (minerAddress : String) (now : Nat) : Prop :=
  let res := Blockchain.mineBlock env szf s minerAddress now
  let reward := Blockchain.rewardTransaction minerAddress s.miningReward
  let blk := res.1.getD Blockchain.dummyBlock
  blk = Block.addTransaction env (Blockchain.minedCandidate env szf s now).2 reward
  ∧ blk.transactions = Blockchain.selectedTxs szf s ++ [reward]
  ∧ blk.hash = (Blockchain.minedCandidate env szf s now).2.hash
  ∧ blk.merkleRoot = Block.computeMerkleRoot env (Blockchain.selectedTxs szf s ++ [reward])
  ∧ res.2.utxoSet = Blockchain.updateUTXOSet s.utxoSet blk
  ∧ (res.2.mempool, res.2.pendingTransactions) =
      (if 0 < s.pendingTransactions.length then
        Blockchain.removeMined s.mempool s.pendingTransactions (Blockchain.selectedTxs szf s)
      else (s.mempool, s.pendingTransactions))
  ∧ res.2.chain =
      (if Blockchain.validateBlock env s blk then s.chain ++ [blk] else s.chain)

/-- A basic chain built over the never-winning hash environment (its
genesis proof-of-work search exhausts the budget; the block is pushed
regardless, exactly as the constructor does). -/
def chainBX : Blockchain :=
  Blockchain.init envX 4 50 1000000 1000 0 15000000 7

/-- An enhanced chain over the never-winning hash environment. -/
def chainEX : EnhancedBlockchain :=
  EnhancedBlockchain.init envX 2 50 300 7 []

/-! ## Helper lemmas: association maps -/

theorem jsSet_cons_ne {κ β : Type} [BEq κ] (a : κ) (b : β) (t : List (κ × β))
    (k : κ) (v : β) (h : (a == k) = false) :
    jsSet ((a, b) :: t) k v = (a, b) :: jsSet t k v := by
  simp only [jsSet, jsHas, jsGet, List.find?, h, List.map, List.cons_append]
  by_cases h2 : (List.find? (fun p => p.1 == k) t).isSome
  · simp [h2, h]
  · simp [h2, h]

theorem map_replace_eq_self {κ β : Type} [BEq κ] [LawfulBEq κ]
    (t : List (κ × β)) (k : κ) (v : β) (h : k ∉ jsKeys t) :
    t.map (fun p => if p.1 == k then (k, v) else p) = t := by
  induction t with
  | nil => rfl
  | cons p t ih =>
    simp only [jsKeys, List.map, List.mem_cons] at h
    push_neg at h
    have h1 : (p.1 == k) = false := by
      simp only [beq_eq_false_iff_ne, ne_eq]
      exact fun hc => h.1 hc.symm
    simp only [List.map, h1, Bool.false_eq_true, if_false]
    rw [ih]
    intro hc
    exact absurd (by simpa [jsKeys] using hc) h.2

theorem jsSet_cons_eq {κ β : Type} [BEq κ] [LawfulBEq κ] (k : κ) (b : β)
    (t : List (κ × β)) (v : β) (h : k ∉ jsKeys t) :
    jsSet ((k, b) :: t) k v = (k, v) :: t := by
  simp only [jsSet, jsHas, jsGet, List.find?, beq_self_eq_true]
  simp [map_replace_eq_self t k v h]

theorem jsGet_jsSet_self {κ β : Type} [BEq κ] [LawfulBEq κ]
    (m : List (κ × β)) (k : κ) (v : β) :
    jsGet (jsSet m k v) k = some v := by
  induction m with
  | nil => simp [jsSet, jsHas, jsGet]
  | cons p t ih =>
    obtain ⟨a, b⟩ := p
    by_cases hak : a = k
    · subst hak
      simp only [jsSet, jsHas, jsGet, List.find?, beq_self_eq_true]
      simp [List.find?]
    · have h : (a == k) = false := by simpa using hak
      rw [jsSet_cons_ne a b t k v h]
      simpa [jsGet, List.find?, h] using ih

theorem find?_map_replace_ne {κ β : Type} [BEq κ] [LawfulBEq κ]
    (t : List (κ × β)) (k k' : κ) (v : β) (h : (k == k') = false) :
    List.find? (fun p => p.1 == k') (t.map (fun p => if p.1 == k then (k, v) else p))
      = List.find? (fun p => p.1 == k') t := by
  induction t with
  | nil => rfl
  | cons p t ih =>
    obtain ⟨a, b⟩ := p
    by_cases hak : (a == k) = true
    · have ha : a = k := by simpa using hak
      subst ha
      simp only [List.map, hak, if_true, List.find?, h]
      simpa [List.find?, h] using ih
    · have hak' : (a == k) = false := by simpa using hak
      simp only [List.map, hak', Bool.false_eq_true, if_false, List.find?]
      by_cases hk' : (a == k') = true
      · simp [hk']
      · have : (a == k') = false := by simpa using hk'
        simpa [List.find?, this] using ih

theorem find?_append_none {κ β : Type} (p : κ × β → Bool)
    (l₁ l₂ : List (κ × β)) (h : List.find? p l₁ = none) :
    List.find? p (l₁ ++ l₂) = List.find? p l₂ := by
  induction l₁ with
  | nil => rfl
  | cons q t ih =>
    simp only [List.find?] at h ⊢
    by_cases hq : p q = true
    · simp [hq] at h
    · have : p q = false := by simpa using hq
      simp only [this] at h ⊢
      exact ih h

theorem jsGet_jsSet_ne {κ β : Type} [BEq κ] [LawfulBEq κ]
    (m : List (κ × β)) (k k' : κ) (v : β) (h : k' ≠ k) :
    jsGet (jsSet m k v) k' = jsGet m k' := by
  have hkk : (k == k') = false := by simpa using fun hc => h hc.symm
  by_cases hh : jsHas m k
  · simp only [jsSet, hh, if_true, jsGet]
    rw [find?_map_replace_ne m k k' v hkk]
  · simp only [jsSet, hh, Bool.false_eq_true, if_false, jsGet]
    by_cases hf : (List.find? (fun p => p.1 == k') m).isSome
    · obtain ⟨q, hq⟩ := Option.isSome_iff_exists.mp hf
      rw [List.find?_append, hq]
      rfl
    · have hn : List.find? (fun p => p.1 == k') m = none := by
        cases hcase : List.find? (fun p => p.1 == k') m
        · rfl
        · rw [hcase] at hf; simp at hf
      rw [find?_append_none _ _ _ hn, hn]
      simp [List.find?, hkk]

theorem jsKeys_map_replace {κ β : Type} [BEq κ] [LawfulBEq κ]
    (m : List (κ × β)) (k : κ) (v : β) :
    jsKeys (m.map (fun p => if p.1 == k then (k, v) else p)) = jsKeys m := by
  induction m with
  | nil => rfl
  | cons p t ih =>
    obtain ⟨a, b⟩ := p
    by_cases hak : (a == k) = true
    · have ha : a = k := by simpa using hak
      subst ha
      simp only [List.map, hak, if_true, jsKeys] at ih ⊢
      simpa using ih
    · have hak' : (a == k) = false := by simpa using hak
      simp only [List.map, hak', Bool.false_eq_true, if_false, jsKeys] at ih ⊢
      simpa using ih

theorem jsGet_eq_none_of_not_mem {κ β : Type} [BEq κ] [LawfulBEq κ]
    (m : List (κ × β)) (k : κ) (h : k ∉ jsKeys m) :
    jsGet m k = none := by
  induction m with
  | nil => rfl
  | cons p t ih =>
    simp only [jsKeys, List.map, List.mem_cons] at h
    push_neg at h
    have h1 : (p.1 == k) = false := by
      simp only [beq_eq_false_iff_ne, ne_eq]
      exact fun hc => h.1 hc.symm
    simp only [jsGet, List.find?, h1] at ih ⊢
    exact ih (by simpa [jsKeys] using h.2)

theorem not_mem_of_jsGet_none {κ β : Type} [BEq κ] [LawfulBEq κ]
    (m : List (κ × β)) (k : κ) (h : jsGet m k = none) :
    k ∉ jsKeys m := by
  induction m with
  | nil => simp [jsKeys]
  | cons p t ih =>
    simp only [jsGet, List.find?] at h
    by_cases h1 : (p.1 == k) = true
    · simp [h1] at h
    · have h1' : (p.1 == k) = false := by simpa using h1
      rw [h1'] at h
      simp only [jsKeys, List.map, List.mem_cons]
      push_neg
      refine ⟨fun hc => ?_, ?_⟩
      · rw [hc] at h1'; simp at h1'
      · simpa [jsKeys] using ih h

theorem NodupKeys_jsSet {κ β : Type} [BEq κ] [LawfulBEq κ]
    (m : List (κ × β)) (k : κ) (v : β) (h : NodupKeys m) :
    NodupKeys (jsSet m k v) := by
  by_cases hh : jsHas m k
  · simpa only [NodupKeys, jsSet, hh, if_true, jsKeys_map_replace] using h
  · simp only [jsSet, hh, Bool.false_eq_true, if_false, NodupKeys, jsKeys,
      List.map_append, List.map]
    have hget : jsGet m k = none := by
      simp only [jsHas] at hh
      cases hcase : jsGet m k
      · rfl
      · rw [hcase] at hh; simp at hh
    have hnm := not_mem_of_jsGet_none m k hget
    simp only [NodupKeys, jsKeys] at h hnm
    simp only [List.nodup_append]
    refine ⟨h, List.nodup_singleton k, ?_⟩
    intro a ha hb
    simp only [List.mem_singleton] at hb
    subst hb
    exact hnm ha

theorem mapSum_jsSet {κ : Type} [BEq κ] [LawfulBEq κ]
    (m : List (κ × Int)) (k : κ) (v : Int) (h : NodupKeys m) :
    mapSum (jsSet m k v) = mapSum m + v - (jsGet m k).getD 0 := by
  induction m with
  | nil => simp [jsSet, jsHas, jsGet, mapSum]
  | cons p t ih =>
    obtain ⟨a, b⟩ := p
    simp only [NodupKeys, jsKeys, List.map, List.nodup_cons] at h
    by_cases hak : a = k
    · subst hak
      rw [jsSet_cons_eq a b t v (by simpa [jsKeys] using h.1)]
      simp [mapSum, jsGet, List.find?]
      ring
    · have h1 : (a == k) = false := by simpa using hak
      rw [jsSet_cons_ne a b t k v h1]
      have ih' := ih (by simpa [NodupKeys, jsKeys] using h.2)
      simp only [mapSum, List.map, List.sum_cons, jsGet, List.find?, h1] at ih' ⊢
      omega

theorem mapSum_adjust {κ : Type} [BEq κ] [LawfulBEq κ]
    (m : List (κ × Int)) (k : κ) (d : Int) (h : NodupKeys m) :
    mapSum (jsSet m k ((jsGet m k).getD 0 + d)) = mapSum m + d := by
  rw [mapSum_jsSet _ _ _ h]; omega

theorem mapSum_adjust_sub {κ : Type} [BEq κ] [LawfulBEq κ]
    (m : List (κ × Int)) (k : κ) (d : Int) (h : NodupKeys m) :
    mapSum (jsSet m k ((jsGet m k).getD 0 - d)) = mapSum m - d := by
  rw [mapSum_jsSet _ _ _ h]; omega

/-! ## Claim theorems -/

/-- C10: for every address absent from the balance map, `getBalance`
returns exactly 0 (both the basic and the enhanced ledger). -/
theorem C10_get_balance_default (bs : Blockchain) (es : EnhancedBlockchain)
    (a b : String) (ha : a ∉ jsKeys bs.utxoSet) (hb : b ∉ jsKeys es.balances) :
    Blockchain.getBalance bs a = 0 ∧ EnhancedBlockchain.getBalance es b = 0 := by
  constructor
  · simp [Blockchain.getBalance, jsGet_eq_none_of_not_mem _ _ ha]
  · simp [EnhancedBlockchain.getBalance, jsGet_eq_none_of_not_mem _ _ hb]

theorem C10_get_balance_default_witness :
    ("0xdead" ∉ jsKeys chainB0.utxoSet ∧ "0xdead" ∉ jsKeys chainE0.balances) ∧
    (Blockchain.getBalance chainB0 "0xdead" = 0 ∧
      EnhancedBlockchain.getBalance chainE0 "0xdead" = 0) :=
  ⟨⟨by decide, by decide⟩,
   C10_get_balance_default chainB0 chainE0 "0xdead" "0xdead" (by decide) (by decide)⟩

/-- C8: whenever `maxFeePerGas` is at least the current base fee, the
effective gas price lies between the base fee and `maxFeePerGas`. -/
theorem C8_effective_gas_price_bounds (tx : Transaction) (baseFeePerGas : Nat)
    (h : baseFeePerGas ≤ tx.maxFeePerGas) :
    (baseFeePerGas : Int) ≤ tx.getEffectiveGasPrice baseFeePerGas ∧
    tx.getEffectiveGasPrice baseFeePerGas ≤ (tx.maxFeePerGas : Int) := by
  have hInt : (baseFeePerGas : Int) ≤ (tx.maxFeePerGas : Int) := by exact_mod_cast h
  simp only [Transaction.getEffectiveGasPrice]
  set m : Int := min (tx.maxPriorityFeePerGas : Int)
    ((tx.maxFeePerGas : Int) - (baseFeePerGas : Int)) with hm
  have h0 : (0 : Int) ≤ m := le_min (Int.ofNat_nonneg _) (by omega)
  have h1 : m ≤ (tx.maxFeePerGas : Int) - (baseFeePerGas : Int) := min_le_right _ _
  constructor <;> linarith

theorem C8_effective_gas_price_bounds_witness :
    5 ≤ txFee.maxFeePerGas ∧
    ((5 : Int) ≤ txFee.getEffectiveGasPrice 5 ∧
      txFee.getEffectiveGasPrice 5 ≤ (txFee.maxFeePerGas : Int)) :=
  ⟨by decide, C8_effective_gas_price_bounds txFee 5 (by decide)⟩

/-- C7: `calculateNextBaseFee(target)` leaves the base fee unchanged at
target usage, adds `⌊baseFee·(used−target)/target/8⌋` above target, and
below target subtracts the symmetric amount floored at zero. -/
theorem C7_next_base_fee (b : Block) (targetGasUsed : Nat) (_ht : 0 < targetGasUsed) :
    (b.getTotalGasUsed = targetGasUsed →
      b.calculateNextBaseFee targetGasUsed = b.baseFeePerGas)
  ∧ (targetGasUsed < b.getTotalGasUsed →
      b.calculateNextBaseFee targetGasUsed
        = b.baseFeePerGas
          + b.baseFeePerGas * (b.getTotalGasUsed - targetGasUsed) / (targetGasUsed * 8))
  ∧ (b.getTotalGasUsed < targetGasUsed →
      (b.calculateNextBaseFee targetGasUsed : Int)
        = max 0 ((b.baseFeePerGas : Int)
            - ((b.baseFeePerGas * (targetGasUsed - b.getTotalGasUsed)
                / (targetGasUsed * 8) : Nat) : Int))) := by
  refine ⟨?_, ?_, ?_⟩
  · intro h
    simp [Block.calculateNextBaseFee, h]
  · intro h
    have hne : ¬(b.getTotalGasUsed = targetGasUsed) := by omega
    have hgt : b.getTotalGasUsed > targetGasUsed := h
    simp only [Block.calculateNextBaseFee, hne, if_false, hgt, if_true]
    rw [Nat.div_div_eq_div_mul]
  · intro h
    have hne : ¬(b.getTotalGasUsed = targetGasUsed) := by omega
    have hngt : ¬(b.getTotalGasUsed > targetGasUsed) := by omega
    simp only [Block.calculateNextBaseFee, hne, if_false, hngt, if_true]
    rw [Nat.div_div_eq_div_mul]
    have hdec : b.baseFeePerGas * (targetGasUsed - b.getTotalGasUsed)
        / (targetGasUsed * 8) ≤ b.baseFeePerGas := by
      apply Nat.div_le_of_le_mul
      calc b.baseFeePerGas * (targetGasUsed - b.getTotalGasUsed)
          ≤ b.baseFeePerGas * (targetGasUsed * 8) :=
            Nat.mul_le_mul_left _ (by omega)
        _ = targetGasUsed * 8 * b.baseFeePerGas := by ring
    rw [Nat.cast_sub hdec, max_eq_right]
    omega

theorem C7_next_base_fee_witness :
    0 < 10 ∧
    ((blockGas.getTotalGasUsed = 10 → blockGas.calculateNextBaseFee 10 = blockGas.baseFeePerGas)
  ∧ (10 < blockGas.getTotalGasUsed →
      blockGas.calculateNextBaseFee 10
        = blockGas.baseFeePerGas
          + blockGas.baseFeePerGas * (blockGas.getTotalGasUsed - 10) / (10 * 8))
  ∧ (blockGas.getTotalGasUsed < 10 →
      (blockGas.calculateNextBaseFee 10 : Int)
        = max 0 ((blockGas.baseFeePerGas : Int)
            - ((blockGas.baseFeePerGas * (10 - blockGas.getTotalGasUsed) / (10 * 8) : Nat) : Int)))) :=
  ⟨by decide, C7_next_base_fee blockGas 10 (by decide)⟩

/-- C4: `addTransaction` of the enhanced ledger (the one tracking nonces)
accepts only a transaction whose nonce equals the sender's tracked nonce,
and on acceptance advances the tracked nonce by exactly one; a mismatching
nonce is rejected with the state untouched. -/
theorem C4_nonce_admission (env : HashEnv) (s : EnhancedBlockchain)
    (tx : EnhancedTransaction) :
    ((EnhancedBlockchain.addTransaction env s tx).1 = true →
      tx.nonce = (jsGet s.nonces tx.fromAddr).getD 0 ∧
      jsGet ((EnhancedBlockchain.addTransaction env s tx).2).nonces tx.fromAddr
        = some ((jsGet s.nonces tx.fromAddr).getD 0 + 1))
  ∧ (tx.nonce ≠ (jsGet s.nonces tx.fromAddr).getD 0 →
      EnhancedBlockchain.addTransaction env s tx = (false, s)) := by
  constructor
  · intro hacc
    by_cases hv : EnhancedTransaction.validate s.balances tx
    · by_cases hn : tx.nonce = (jsGet s.nonces tx.fromAddr).getD 0
      · refine ⟨hn, ?_⟩
        simp only [EnhancedBlockchain.addTransaction, hv, Bool.not_true,
          Bool.false_eq_true, if_false, hn, ne_eq, not_true_eq_false]
        simp [jsGet_jsSet_self]
      · exfalso
        simp only [EnhancedBlockchain.addTransaction, hv, Bool.not_true,
          Bool.false_eq_true, if_false, ne_eq, hn, not_false_eq_true, if_true] at hacc
    · exfalso
      have hv' : (!(EnhancedTransaction.validate s.balances tx)) = true := by
        simp [hv]
      simp only [EnhancedBlockchain.addTransaction, hv', if_true] at hacc
      exact Bool.false_ne_true hacc
  · intro hn
    by_cases hv : EnhancedTransaction.validate s.balances tx
    · simp [EnhancedBlockchain.addTransaction, hv, hn]
    · have hv' : (!(EnhancedTransaction.validate s.balances tx)) = true := by
        simp [hv]
      simp [EnhancedBlockchain.addTransaction, hv']

theorem C4_nonce_admission_witness :
    (EnhancedBlockchain.addTransaction envZ chainE0 eTxOne).1 = true ∧
    (eTxOne.nonce = (jsGet chainE0.nonces eTxOne.fromAddr).getD 0 ∧
      jsGet ((EnhancedBlockchain.addTransaction envZ chainE0 eTxOne).2).nonces eTxOne.fromAddr
        = some ((jsGet chainE0.nonces eTxOne.fromAddr).getD 0 + 1)) :=
  ⟨by decide, (C4_nonce_admission envZ chainE0 eTxOne).1 (by decide)⟩

/-! ## Bloom filter lemmas -/

theorem foldl_set_length (hs : List Nat) (arr : List Nat) :
    (hs.foldl (fun a h => a.set h 1) arr).length = arr.length := by
  induction hs generalizing arr with
  | nil => rfl
  | cons h t ih => simpa [List.foldl] using ih (arr.set h 1)

theorem get?_set_self (l : List Nat) (i : Nat) (h : i < l.length) :
    (l.set i 1).get? i = some 1 := by
  induction l generalizing i with
  | nil => simp at h
  | cons a t ih =>
    cases i with
    | zero => rfl
    | succ j =>
      simp only [List.set, List.get?]
      exact ih j (by simpa using h)

theorem get?_set_keep (l : List Nat) (i j : Nat) (h : l.get? j = some 1) :
    (l.set i 1).get? j = some 1 := by
  induction l generalizing i j with
  | nil => simp [List.get?] at h
  | cons a t ih =>
    cases i with
    | zero =>
      cases j with
      | zero => rfl
      | succ j' => simpa [List.set, List.get?] using h
    | succ i' =>
      cases j with
      | zero => simpa [List.set, List.get?] using h
      | succ j' =>
        simp only [List.set, List.get?] at h ⊢
        exact ih i' j' h

theorem foldl_set_one (hs : List Nat) (arr : List Nat) (p : Nat)
    (h : (p ∈ hs ∧ p < arr.length) ∨ arr.get? p = some 1) :
    (hs.foldl (fun a h => a.set h 1) arr).get? p = some 1 := by
  induction hs generalizing arr with
  | nil =>
    rcases h with ⟨hmem, _⟩ | hone
    · simp at hmem
    · simpa using hone
  | cons q t ih =>
    simp only [List.foldl]
    rcases h with ⟨hmem, hlt⟩ | hone
    · rcases List.mem_cons.mp hmem with hq | ht
      · subst hq
        exact ih (arr.set p 1) (Or.inr (get?_set_self arr p hlt))
      · exact ih (arr.set q 1) (Or.inl ⟨ht, by simpa using hlt⟩)
    · exact ih (arr.set q 1) (Or.inr (get?_set_keep arr q p hone))

theorem bloom_add_size (env : HashEnv) (g : BloomFilter) (x : String) :
    (BloomFilter.add env g x).size = g.size ∧
    (BloomFilter.add env g x).hashCount = g.hashCount ∧
    (BloomFilter.add env g x).bitArray.length = g.bitArray.length := by
  refine ⟨rfl, rfl, ?_⟩
  simp [BloomFilter.add, foldl_set_length]

theorem getHashes_congr (env : HashEnv) (g f : BloomFilter) (item : String)
    (hs : g.size = f.size) (hc : g.hashCount = f.hashCount) :
    BloomFilter.getHashes env g item = BloomFilter.getHashes env f item := by
  simp [BloomFilter.getHashes, hs, hc]

theorem bloom_bits_persist (env : HashEnv) (f : BloomFilter) (item : String) :
    ∀ (others : List String) (g : BloomFilter),
    g.size = f.size → g.hashCount = f.hashCount →
    (∀ p ∈ BloomFilter.getHashes env f item, g.bitArray.get? p = some 1) →
    BloomFilter.mightContain env (others.foldl (BloomFilter.add env) g) item = true := by
  intro others
  induction others with
  | nil =>
    intro g hs hc hbits
    simp only [List.foldl, BloomFilter.mightContain, getHashes_congr env g f item hs hc]
    rw [List.all_eq_true]
    intro p hp
    rw [hbits p hp]
    rfl
  | cons x xs ih =>
    intro g hs hc hbits
    simp only [List.foldl]
    refine ih (BloomFilter.add env g x) hs hc ?_
    intro p hp
    simpa [BloomFilter.add] using
      foldl_set_one (BloomFilter.getHashes env g x) g.bitArray p (Or.inr (hbits p hp))

/-- C5: an item fed to the Bloom filter's `add` is reported present by
every later `mightContain`, no matter how many other items are added in
between (bits are only ever set, never cleared). -/
theorem C5_bloom_no_false_negative (env : HashEnv) (f : BloomFilter) (item : String)
    (others : List String) (hlen : f.bitArray.length = f.size) (hpos : 0 < f.size) :
    BloomFilter.mightContain env
      (others.foldl (BloomFilter.add env) (BloomFilter.add env f item)) item = true := by
  refine bloom_bits_persist env f item others (BloomFilter.add env f item) rfl rfl ?_
  intro p hp
  have hplt : p < f.bitArray.length := by
    simp only [BloomFilter.getHashes, List.mem_map, List.mem_range] at hp
    obtain ⟨i, _, hi⟩ := hp
    rw [hlen, ← hi]
    exact Nat.mod_lt _ hpos
  simpa [BloomFilter.add] using
    foldl_set_one (BloomFilter.getHashes env f item) f.bitArray p (Or.inl ⟨hp, hplt⟩)

theorem C5_bloom_no_false_negative_witness :
    (bloomSmall.bitArray.length = bloomSmall.size ∧ 0 < bloomSmall.size) ∧
    BloomFilter.mightContain envZ
      (["u", "v"].foldl (BloomFilter.add envZ) (BloomFilter.add envZ bloomSmall "t")) "t" = true :=
  ⟨⟨by decide, by decide⟩,
   C5_bloom_no_false_negative envZ bloomSmall "t" ["u", "v"] (by decide) (by decide)⟩

/-! ## Mining-failure lemmas -/

theorem mineSearchAux_eq_none (ok : Nat → Bool) (h : ∀ n, ok n = false) :
    ∀ start fuel, mineSearchAux ok start fuel = none := by
  intro start fuel
  induction fuel generalizing start with
  | zero => rfl
  | succ f ih => simp [mineSearchAux, h start, ih]

theorem block_mine_fst_false (env : HashEnv) (b : Block) (maxAttempts : Nat)
    (h : ∀ n, Block.powOk env b n = false) :
    (Block.mine env b maxAttempts).1 = false := by
  have hs : mineSearch (fun i => Block.powOk env b (b.nonce + i)) maxAttempts = none :=
    mineSearchAux_eq_none _ (fun n => h _) 0 maxAttempts
  simp [Block.mine, hs]

theorem eblock_mine_fst_false (env : HashEnv) (b : EnhancedBlock) (maxAttempts : Nat)
    (h : ∀ n, EnhancedBlock.powOk env b n = false) :
    (EnhancedBlock.mine env b maxAttempts).1 = false := by
  have hs : mineSearch (fun i => EnhancedBlock.powOk env b (b.nonce + i)) maxAttempts = none :=
    mineSearchAux_eq_none _ (fun n => h _) 0 maxAttempts
  simp [EnhancedBlock.mine, hs]

/-- C3: when the proof-of-work search exhausts its attempt budget,
`mineBlock` returns `null` and the ledger state — chain, mempool, pending
list, balances, nonces and filter alike — is exactly the state before the
attempt, for the basic and the enhanced ledger. -/
theorem C3_mining_failure_frame (env : HashEnv) (szf : Transaction → Nat)
    (s : Blockchain) (es : EnhancedBlockchain) (minerB minerE : String) (nowB nowE : Nat)
    (hb : (Blockchain.minedCandidate env szf s nowB).1 = false)
    (he : (EnhancedBlockchain.minedCandidate env es minerE nowE).1 = false) :
    Blockchain.mineBlock env szf s minerB nowB = (none, s) ∧
    EnhancedBlockchain.mineBlock env es minerE nowE = (none, es) := by
  constructor
  · simp [Blockchain.mineBlock, hb]
  · simp [EnhancedBlockchain.mineBlock, he]

theorem C3_mining_failure_frame_witness :
    Blockchain.mineBlock envX szOne chainBX "0xminer" 9 = (none, chainBX) ∧
    EnhancedBlockchain.mineBlock envX chainEX "0xminer" 9 = (none, chainEX) :=
  C3_mining_failure_frame envX szOne chainBX chainEX "0xminer" "0xminer" 9 9
    (block_mine_fst_false envX _ 1000000 (fun _ => rfl))
    (eblock_mine_fst_false envX _ 1000000 (fun _ => rfl))

/-! ## Block-bound lemmas (claim C6) -/

theorem reprocess_length_le (env : HashEnv) (b : EnhancedBlock)
    (txs : List EnhancedTransaction) :
    (EnhancedBlock.reprocess env b txs).transactions.length ≤ 4 := by
  simp only [EnhancedBlock.reprocess, List.length_take]
  omega

theorem select_fold_bounds (szf : Transaction → Nat) (s : Blockchain)
    (l : List Transaction) (acc : List Transaction × Nat × Nat)
    (h1 : acc.1.length ≤ s.maxTransactionsPerBlock)
    (h2 : (acc.1.map szf).sum = acc.2.1)
    (h3 : acc.2.1 ≤ s.maxBlockSize) :
    (l.foldl (Blockchain.selectStep szf s) acc).1.length ≤ s.maxTransactionsPerBlock ∧
    ((l.foldl (Blockchain.selectStep szf s) acc).1.map szf).sum ≤ s.maxBlockSize := by
  induction l generalizing acc with
  | nil => exact ⟨h1, by simpa [h2] using h3⟩
  | cons tx t ih =>
    simp only [List.foldl]
    by_cases hc : acc.2.1 + szf tx ≤ s.maxBlockSize ∧
        acc.2.2 + tx.gasLimit ≤ s.targetGasUsed ∧
        acc.1.length < s.maxTransactionsPerBlock
    · have hstep : Blockchain.selectStep szf s acc tx
          = (acc.1 ++ [tx], acc.2.1 + szf tx, acc.2.2 + tx.gasLimit) := by
        simp [Blockchain.selectStep, hc]
      rw [hstep]
      exact ih _ (by simpa using hc.2.2) (by simp [h2]) hc.1
    · have hstep : Blockchain.selectStep szf s acc tx = acc := by
        simp [Blockchain.selectStep, hc]
      rw [hstep]
      exact ih _ h1 h2 h3

/-- C6 (amended): an `EnhancedBlock` never holds more than 4 transactions
— neither at construction (the constructor truncates) nor after
`addTransaction` (which refuses a full block); in the basic chain the
transactions selected from the mempool respect the configured count and
byte-size budgets.  (The basic `mineBlock` then appends the miner-reward
transaction without re-checking, which is the counterexample to the
original claim.) -/
theorem C6_block_bounds_amended (env : HashEnv) (szf : Transaction → Nat)
    (index : Nat) (previousHash : Option String) (txs : List EnhancedTransaction)
    (timestamp difficulty : Nat) (minerAddress : String)
    (b : EnhancedBlock) (tx : EnhancedTransaction) (s : Blockchain)
    (hb : b.transactions.length ≤ 4) :
    (EnhancedBlock.build env index previousHash txs timestamp difficulty
      minerAddress).transactions.length ≤ 4
  ∧ ((EnhancedBlock.addTransaction env b tx).2).transactions.length ≤ 4
  ∧ (Blockchain.selectTransactionsForBlock szf s).length ≤ s.maxTransactionsPerBlock
  ∧ ((Blockchain.selectTransactionsForBlock szf s).map szf).sum ≤ s.maxBlockSize := by
  refine ⟨reprocess_length_le env _ txs, ?_, ?_⟩
  · by_cases hfull : 4 ≤ b.transactions.length
    · simpa [EnhancedBlock.addTransaction, hfull] using hb
    · simp only [EnhancedBlock.addTransaction, hfull, if_false]
      exact reprocess_length_le env b _
  · simpa only [Blockchain.selectTransactionsForBlock] using
      select_fold_bounds szf s _ ([], 0, 0) (by simp) (by simp) (by simp)

theorem C6_block_bounds_counterexample :
    chainBtight1.maxTransactionsPerBlock = 1 ∧
    ((Blockchain.mineBlock envZ szOne chainBtight1 "0xminer" 8).1.map
      (fun b => b.transactions.length)) = some 2 := by
  constructor
  · decide
  · decide

/-! ## Frame behaviour of the basic `mineBlock` (claim C9) -/

theorem block_mine_transactions (env : HashEnv) (b : Block) (maxAttempts : Nat) :
    (Block.mine env b maxAttempts).2.transactions = b.transactions := by
  unfold Block.mine
  cases mineSearch (fun i => Block.powOk env b (b.nonce + i)) maxAttempts <;> rfl

/-- C9: whenever the basic `mineBlock` finds a proof-of-work nonce, the
reward transaction is appended after the hash was fixed (the Merkle root
alone is recomputed), the balance map is rewritten through
`_updateUTXOSet` and the mined transactions are evicted — all
unconditionally — while the chain is extended only if `_validateBlock`
inside `addBlock` accepts (its verdict is otherwise ignored). -/
theorem C9_mine_block_frame (env : HashEnv) (szf : Transaction → Nat)
    (s : Blockchain) (minerAddress : String) (now : Nat)
    (h : (Blockchain.mineBlock env szf s minerAddress now).1.isSome = true) :
    MineBlockFrame env szf s minerAddress now := by
  by_cases hm : (Blockchain.minedCandidate env szf s now).1 = true
  · unfold MineBlockFrame
    simp only [Blockchain.mineBlock, hm, if_true, Option.getD_some]
    refine ⟨?_, ?_, ?_, ?_, ?_, ?_, ?_⟩ <;>
      first
        | trivial
        | (show (Block.mine env (Blockchain.candidateBlock env szf s now) 1000000).2.transactions
              ++ [Blockchain.rewardTransaction minerAddress s.miningReward] = _
           rw [block_mine_transactions]
           rfl)
        | (show Block.computeMerkleRoot env
              ((Block.mine env (Blockchain.candidateBlock env szf s now) 1000000).2.transactions
                ++ [Blockchain.rewardTransaction minerAddress s.miningReward]) = _
           rw [block_mine_transactions]
           rfl)
  · exfalso
    have : (Blockchain.mineBlock env szf s minerAddress now).1 = none := by
      simp [Blockchain.mineBlock, hm]
    rw [this] at h
    simp at h

set_option maxRecDepth 8000 in
theorem C9_mine_block_frame_witness :
    MineBlockFrame envZ szOne chainBtight1 "0xminer" 8 ∧
    (Blockchain.mineBlock envZ szOne chainBtight1 "0xminer" 8).2.chain = chainBtight1.chain ∧
    Blockchain.getBalance (Blockchain.mineBlock envZ szOne chainBtight1 "0xminer" 8).2
      "0xminer" = 50 :=
  ⟨C9_mine_block_frame envZ szOne chainBtight1 "0xminer" 8 (by decide),
   by decide, by decide⟩

/-! ## Merkle tree lemmas (claim C2) -/

namespace MerkleTree

theorem nextLevel_length (H : String → String) :
    ∀ l : List String, (nextLevel H l).length = (l.length + 1) / 2
  | [] => by simp [nextLevel]
  | [a] => by simp [nextLevel]
  | a :: b :: rest => by
    simp only [nextLevel, List.length_cons]
    rw [nextLevel_length H rest]
    omega

theorem buildLevelsAux_congr (H : String → String) :
    ∀ f1 f2 (l : List String), l.length ≤ f1 + 1 → l.length ≤ f2 + 1 →
      buildLevelsAux H f1 l = buildLevelsAux H f2 l := by
  intro f1
  induction f1 with
  | zero =>
    intro f2 l h1 h2
    cases f2 with
    | zero => rfl
    | succ g =>
      simp only [buildLevelsAux]
      rw [if_pos h1]
  | succ f ih =>
    intro f2 l h1 h2
    cases f2 with
    | zero =>
      simp only [buildLevelsAux]
      rw [if_pos h2]
    | succ g =>
      simp only [buildLevelsAux]
      by_cases hl : l.length ≤ 1
      · rw [if_pos hl, if_pos hl]
      · rw [if_neg hl, if_neg hl]
        have hnext := nextLevel_length H l
        refine congrArg _ (ih g (nextLevel H l) ?_ ?_) <;> omega

theorem buildLevels_eq (H : String → String) (l : List String) :
    buildLevels H l = if l.length ≤ 1 then [l] else l :: buildLevels H (nextLevel H l) := by
  match l with
  | [] => simp [buildLevels, buildLevelsAux]
  | [a] => simp [buildLevels, buildLevelsAux]
  | a :: b :: t =>
    have hlen : (a :: b :: t).length = t.length + 2 := by simp
    have hcond : ¬((a :: b :: t).length ≤ 1) := by simp
    rw [if_neg hcond]
    show buildLevelsAux H (a :: b :: t).length (a :: b :: t) = _
    rw [hlen]
    simp only [buildLevelsAux, hcond, if_false]
    refine congrArg (List.cons (a :: b :: t))
      (buildLevelsAux_congr H (t.length + 1) ((nextLevel H (a :: b :: t)).length)
        (nextLevel H (a :: b :: t)) ?_ ?_)
    · rw [nextLevel_length H (a :: b :: t), hlen]
      omega
    · omega

theorem buildLevelsAux_ne_nil (H : String → String) :
    ∀ f (l : List String), buildLevelsAux H f l ≠ []
  | 0, l => by simp [buildLevelsAux]
  | f + 1, l => by
    simp only [buildLevelsAux]
    by_cases hl : l.length ≤ 1 <;> simp [hl]

theorem buildLevels_ne_nil (H : String → String) (l : List String) :
    buildLevels H l ≠ [] :=
  buildLevelsAux_ne_nil H _ l

theorem buildLevels_head (H : String → String) (l : List String) :
    ∃ rest, buildLevels H l = l :: rest := by
  rw [buildLevels_eq]
  by_cases hl : l.length ≤ 1
  · exact ⟨[], by rw [if_pos hl]⟩
  · exact ⟨_, by rw [if_neg hl]⟩

theorem getLast?_cons_ne {α : Type} (a : α) :
    ∀ (T : List α), T ≠ [] → (a :: T).getLast? = T.getLast?
  | [], h => absurd rfl h
  | _ :: _, _ => List.getLast?_cons_cons

theorem getRoot_cons (lvl : List String) (T : List (List String)) (h : T ≠ []) :
    getRoot (lvl :: T) = getRoot T := by
  simp only [getRoot]
  rw [getLast?_cons_ne lvl T h]

theorem nextLevel_get (H : String → String) :
    ∀ (t : List String) (j : Nat) (a b : String),
      t.get? (2 * j) = some a → t.get? (2 * j + 1) = some b →
      (nextLevel H t).get? j = some (H (a ++ b))
  | [], j, a, b, ha, hb => by simp [List.get?] at ha
  | [x], j, a, b, ha, hb => by
    have : ([x] : List String).get? (2 * j + 1) = none := by
      rw [List.get?_eq_none]
      simp
    rw [this] at hb
    exact absurd hb (by simp)
  | x :: y :: rest, 0, a, b, ha, hb => by
    have h0 : 2 * 0 = 0 := rfl
    rw [h0] at ha hb
    simp only [List.get?] at ha hb
    obtain rfl : x = a := by injection ha
    obtain rfl : y = b := by injection hb
    rfl
  | x :: y :: rest, j + 1, a, b, ha, hb => by
    have h1 : 2 * (j + 1) = (2 * j + 1) + 1 := by ring
    have h2 : 2 * (j + 1) + 1 = (2 * j + 1 + 1) + 1 := by ring
    rw [h1] at ha
    rw [h2] at hb
    simp only [List.get?_cons_succ] at ha hb
    show (H (x ++ y) :: nextLevel H rest).get? (j + 1) = some (H (a ++ b))
    rw [List.get?_cons_succ]
    exact nextLevel_get H rest j a b ha hb

end MerkleTree

namespace MerkleTree

theorem dropLast_cons_ne {α : Type} (a : α) :
    ∀ (T : List α), T ≠ [] → (a :: T).dropLast = a :: T.dropLast
  | [], h => absurd rfl h
  | _ :: _, _ => rfl

theorem climb (H : String → String) :
    ∀ (k : Nat) (lvl : List String) (idx : Nat) (x : String),
      lvl.length = 2 ^ k → lvl.get? idx = some x →
      getRoot (buildLevels H lvl)
        = some (verifyLoop H x (proofLoop idx (buildLevels H lvl).dropLast).1
            (proofLoop idx (buildLevels H lvl).dropLast).2) := by
  intro k
  induction k with
  | zero =>
    intro lvl idx x hlen hget
    have h1 : lvl.length = 1 := by simpa using hlen
    have hidx : idx < 1 := by
      by_contra hcon
      rw [List.get?_eq_none.mpr (by omega)] at hget
      exact absurd hget (by simp)
    match lvl, h1 with
    | [a], _ =>
      obtain rfl : idx = 0 := by omega
      have hax : a = x := by
        simpa [List.get?] using hget
      subst hax
      rw [buildLevels_eq]
      simp [getRoot, proofLoop, verifyLoop]
  | succ k ih =>
    intro lvl idx x hlen hget
    have hp : 1 ≤ 2 ^ k := Nat.one_le_two_pow
    have hlen2 : lvl.length = 2 * 2 ^ k := by rw [hlen]; ring
    have hnotle : ¬(lvl.length ≤ 1) := by omega
    have hidx : idx < lvl.length := by
      by_contra hcon
      rw [List.get?_eq_none.mpr (by omega)] at hget
      exact absurd hget (by simp)
    have hnextlen : (nextLevel H lvl).length = 2 ^ k := by
      rw [nextLevel_length H lvl, hlen2]
      omega
    rw [buildLevels_eq H lvl, if_neg hnotle]
    have hTne : buildLevels H (nextLevel H lvl) ≠ [] := buildLevels_ne_nil H _
    rw [getRoot_cons lvl _ hTne, dropLast_cons_ne lvl _ hTne]
    simp only [proofLoop, verifyLoop, List.head?, Option.getD, List.tail]
    rcases Nat.mod_two_eq_zero_or_one idx with hpar | hpar
    · -- left child: sibling to the right
      have hR : (idx % 2 == 1) = false := by simp [hpar]
      have hlt1 : idx + 1 < lvl.length := by omega
      obtain ⟨b, hb⟩ : ∃ b, lvl.get? (idx + 1) = some b :=
        ⟨_, List.get?_eq_get hlt1⟩
      have hnext : (nextLevel H lvl).get? (idx / 2) = some (H (x ++ b)) := by
        refine nextLevel_get H lvl (idx / 2) x b ?_ ?_
        · rw [show 2 * (idx / 2) = idx by omega]
          exact hget
        · rw [show 2 * (idx / 2) + 1 = idx + 1 by omega]
          exact hb
      rw [hR]
      simp only [Bool.false_eq_true, if_false, hb]
      exact ih (nextLevel H lvl) (idx / 2) (H (x ++ b)) hnextlen hnext
    · -- right child: sibling to the left
      have hR : (idx % 2 == 1) = true := by simp [hpar]
      have hlt0 : idx - 1 < lvl.length := by omega
      obtain ⟨a, hb⟩ : ∃ a, lvl.get? (idx - 1) = some a :=
        ⟨_, List.get?_eq_get hlt0⟩
      have hnext : (nextLevel H lvl).get? (idx / 2) = some (H (a ++ x)) := by
        refine nextLevel_get H lvl (idx / 2) a x ?_ ?_
        · rw [show 2 * (idx / 2) = idx - 1 by omega]
          exact hb
        · rw [show 2 * (idx / 2) + 1 = idx by omega]
          exact hget
      rw [hR]
      simp only [if_true, hb]
      exact ih (nextLevel H lvl) (idx / 2) (H (a ++ x)) hnextlen hnext

end MerkleTree

namespace MerkleTree

theorem findIdx?_found (x : String) :
    ∀ (L : List String), x ∈ L →
      ∃ idx, L.findIdx? (fun h => h == x) = some idx ∧ L.get? idx = some x := by
  intro L
  induction L with
  | nil => simp
  | cons a t ih =>
    intro hmem
    by_cases hax : (a == x) = true
    · refine ⟨0, ?_, ?_⟩
      · rw [List.findIdx?_cons, if_pos hax]
      · have : a = x := eq_of_beq hax
        simp [List.get?, this]
    · have hmem' : x ∈ t := by
        rcases List.mem_cons.mp hmem with h | h
        · exact absurd (by simp [h]) hax
        · exact h
      obtain ⟨idx, h1, h2⟩ := ih hmem'
      refine ⟨idx + 1, ?_, by simpa [List.get?_cons_succ] using h2⟩
      rw [List.findIdx?_cons, if_neg (by simp [hax]), List.findIdx?_succ, h1]
      rfl

theorem findIdx?_absent (x : String) (L : List String) (h : x ∉ L) :
    L.findIdx? (fun h => h == x) = none := by
  rw [List.findIdx?_eq_none_iff]
  intro a ha
  simp only [beq_eq_false_iff_ne, ne_eq]
  intro hc
  exact h (hc ▸ ha)

end MerkleTree

/-- C2 (amended): over a leaf list whose length is a power of two, every
leaf's generated proof verifies against the tree root; and for any leaf
list whatsoever, `getProof` returns `null` exactly for absent leaves.
(For other lengths the walk can read the missing sibling of a duplicated
node as `undefined`, which is the counterexample to the original claim.) -/
theorem C2_merkle_roundtrip_amended (H : String → String) (L : List String) (x : String) :
    ((∃ k, L.length = 2 ^ k) → x ∈ L →
      (MerkleTree.getProof (MerkleTree.buildTree H L) x).isSome = true ∧
      ((MerkleTree.getProof (MerkleTree.buildTree H L) x).map
        (fun pr => MerkleTree.verifyProof H x pr
          (MerkleTree.getRoot (MerkleTree.buildTree H L)))) = some true)
  ∧ (x ∉ L → MerkleTree.getProof (MerkleTree.buildTree H L) x = none) := by
  constructor
  · rintro ⟨k, hk⟩ hmem
    have hLne : L ≠ [] := by
      intro hc
      rw [hc] at hk
      have : 1 ≤ 2 ^ k := Nat.one_le_two_pow
      simp at hk
      omega
    have htree : MerkleTree.buildTree H L = MerkleTree.buildLevels H L := by
      cases L with
      | nil => exact absurd rfl hLne
      | cons a t => rfl
    obtain ⟨rest, hhead⟩ := MerkleTree.buildLevels_head H L
    obtain ⟨idx, hfind, hget⟩ := MerkleTree.findIdx?_found x L hmem
    have hclimb := MerkleTree.climb H k L idx x hk hget
    have hproof : MerkleTree.getProof (MerkleTree.buildTree H L) x
        = some ⟨(MerkleTree.proofLoop idx (MerkleTree.buildLevels H L).dropLast).1,
                (MerkleTree.proofLoop idx (MerkleTree.buildLevels H L).dropLast).2⟩ := by
      rw [htree, hhead]
      simp only [MerkleTree.getProof]
      rw [hfind, ← hhead]
    refine ⟨by rw [hproof]; rfl, ?_⟩
    rw [hproof]
    simp only [Option.map_some']
    rw [htree]
    simp only [MerkleTree.verifyProof]
    rw [hclimb]
    simp
  · intro hmem
    cases hL : L with
    | nil => rfl
    | cons a t =>
      have htree : MerkleTree.buildTree H L = MerkleTree.buildLevels H L := by
        rw [hL]; rfl
      obtain ⟨rest, hhead⟩ := MerkleTree.buildLevels_head H L
      rw [← hL, htree, hhead]
      simp only [MerkleTree.getProof]
      rw [MerkleTree.findIdx?_absent x L hmem]

theorem C2_merkle_roundtrip_counterexample :
    ("c" ∈ (["a", "b", "c"] : List String)) ∧
    ((MerkleTree.getProof (MerkleTree.buildTree hParen ["a", "b", "c"]) "c").map
      (fun pr => MerkleTree.verifyProof hParen "c" pr
        (MerkleTree.getRoot (MerkleTree.buildTree hParen ["a", "b", "c"])))) = some false := by
  constructor
  · decide
  · decide

theorem C2_merkle_roundtrip_witness :
    ((MerkleTree.getProof (MerkleTree.buildTree hParen ["a", "b"]) "a").isSome = true ∧
      ((MerkleTree.getProof (MerkleTree.buildTree hParen ["a", "b"]) "a").map
        (fun pr => MerkleTree.verifyProof hParen "a" pr
          (MerkleTree.getRoot (MerkleTree.buildTree hParen ["a", "b"])))) = some true) ∧
    MerkleTree.getProof (MerkleTree.buildTree hParen ["a", "b"]) "zz" = none :=
  ⟨(C2_merkle_roundtrip_amended hParen ["a", "b"] "a").1 ⟨1, by decide⟩ (by decide),
   (C2_merkle_roundtrip_amended hParen ["a", "b"] "zz").2 (by decide)⟩

theorem C6_block_bounds_amended_witness :
    EnhancedBlockchain.dummyEBlock.transactions.length ≤ 4 ∧
    ((EnhancedBlock.build envZ 1 none [] 2 3 "m").transactions.length ≤ 4
  ∧ ((EnhancedBlock.addTransaction envZ EnhancedBlockchain.dummyEBlock eTxOne).2).transactions.length ≤ 4
  ∧ (Blockchain.selectTransactionsForBlock szOne chainB0).length ≤ chainB0.maxTransactionsPerBlock
  ∧ ((Blockchain.selectTransactionsForBlock szOne chainB0).map szOne).sum ≤ chainB0.maxBlockSize) :=
  ⟨by decide,
   C6_block_bounds_amended envZ szOne 1 none [] 2 3 "m"
     EnhancedBlockchain.dummyEBlock eTxOne chainB0 (by decide)⟩

/-! ## Conservation lemmas (claim C1) -/

theorem eaddTransaction_frame (env : HashEnv) (s : EnhancedBlockchain)
    (tx : EnhancedTransaction) :
    ((EnhancedBlockchain.addTransaction env s tx).2).balances = s.balances ∧
    ((EnhancedBlockchain.addTransaction env s tx).2).chain = s.chain := by
  unfold EnhancedBlockchain.addTransaction
  by_cases hv : EnhancedTransaction.validate s.balances tx
  · simp only [hv, Bool.not_true, Bool.false_eq_true, if_false]
    by_cases hn : tx.nonce = (jsGet s.nonces tx.fromAddr).getD 0
    · simp [hn]
    · simp [hn]
  · have hv' : (!(EnhancedTransaction.validate s.balances tx)) = true := by simp [hv]
    simp [hv']

theorem eblock_mine_fields (env : HashEnv) (b : EnhancedBlock) (M : Nat) :
    (EnhancedBlock.mine env b M).2.transactions = b.transactions ∧
    (EnhancedBlock.mine env b M).2.totalBaseFees = b.totalBaseFees ∧
    (EnhancedBlock.mine env b M).2.totalPriorityFees = b.totalPriorityFees ∧
    (EnhancedBlock.mine env b M).2.blockReward = b.blockReward := by
  unfold EnhancedBlock.mine
  cases mineSearch (fun i => EnhancedBlock.powOk env b (b.nonce + i)) M <;>
    exact ⟨rfl, rfl, rfl, rfl⟩

theorem ebuild_fee_sums (env : HashEnv) (index : Nat) (previousHash : Option String)
    (txs : List EnhancedTransaction) (timestamp difficulty : Nat) (minerAddress : String) :
    (EnhancedBlock.build env index previousHash txs timestamp difficulty
      minerAddress).totalBaseFees
      = (((EnhancedBlock.build env index previousHash txs timestamp difficulty
          minerAddress).transactions).map (fun tx => tx.baseFee)).sum ∧
    (EnhancedBlock.build env index previousHash txs timestamp difficulty
      minerAddress).totalPriorityFees
      = (((EnhancedBlock.build env index previousHash txs timestamp difficulty
          minerAddress).transactions).map (fun tx => tx.priorityFee)).sum ∧
    (EnhancedBlock.build env index previousHash txs timestamp difficulty
      minerAddress).blockReward = 50 :=
  ⟨rfl, rfl, rfl⟩

theorem value_sub_cost_sum (txs : List EnhancedTransaction) :
    (txs.map (fun tx => (tx.value : Int) - (tx.totalCost : Int))).sum
      = -(((txs.map (fun tx => tx.baseFee)).sum : Nat) : Int)
        - (((txs.map (fun tx => tx.priorityFee)).sum : Nat) : Int) := by
  induction txs with
  | nil => simp
  | cons tx t ih =>
    simp only [List.map, List.sum_cons]
    rw [ih]
    have h : (tx.value : Int) - (tx.totalCost : Int)
        = -(tx.baseFee : Int) - (tx.priorityFee : Int) := by
      simp only [EnhancedTransaction.totalCost]
      push_cast
      ring
    rw [h]
    push_cast
    ring

theorem balance_fold (txs : List EnhancedTransaction) :
    ∀ (bal : List (String × Int)), NodupKeys bal →
      NodupKeys (txs.foldl
        (fun bal tx =>
          let bal' := jsSet bal tx.fromAddr
            ((jsGet bal tx.fromAddr).getD 0 - (tx.totalCost : Int))
          jsSet bal' tx.toAddr ((jsGet bal' tx.toAddr).getD 0 + (tx.value : Int))) bal) ∧
      mapSum (txs.foldl
        (fun bal tx =>
          let bal' := jsSet bal tx.fromAddr
            ((jsGet bal tx.fromAddr).getD 0 - (tx.totalCost : Int))
          jsSet bal' tx.toAddr ((jsGet bal' tx.toAddr).getD 0 + (tx.value : Int))) bal)
        = mapSum bal + (txs.map (fun tx => (tx.value : Int) - (tx.totalCost : Int))).sum := by
  induction txs with
  | nil =>
    intro bal h
    exact ⟨h, by simp⟩
  | cons tx t ih =>
    intro bal h
    have h1 : NodupKeys (jsSet bal tx.fromAddr
        ((jsGet bal tx.fromAddr).getD 0 - (tx.totalCost : Int))) :=
      NodupKeys_jsSet _ _ _ h
    have h2 : NodupKeys (jsSet (jsSet bal tx.fromAddr
        ((jsGet bal tx.fromAddr).getD 0 - (tx.totalCost : Int))) tx.toAddr
        ((jsGet (jsSet bal tx.fromAddr
          ((jsGet bal tx.fromAddr).getD 0 - (tx.totalCost : Int))) tx.toAddr).getD 0
          + (tx.value : Int))) :=
      NodupKeys_jsSet _ _ _ h1
    obtain ⟨ha, hb⟩ := ih _ h2
    refine ⟨by simpa using ha, ?_⟩
    simp only [List.foldl, List.map, List.sum_cons]
    rw [hb, mapSum_adjust _ _ _ h1, mapSum_adjust_sub _ _ _ h]
    ring

theorem chainBurn_append (c : List EnhancedBlock) (b : EnhancedBlock) :
    EnhancedBlockchain.chainBurn (c ++ [b])
      = EnhancedBlockchain.chainBurn c + b.totalBaseFees := by
  simp [EnhancedBlockchain.chainBurn]

theorem updateBalances_conservation (s : EnhancedBlockchain) (blk : EnhancedBlock)
    (h : NodupKeys s.balances) :
    NodupKeys (EnhancedBlockchain.updateBalances s blk).balances ∧
    (EnhancedBlockchain.updateBalances s blk).chain = s.chain ∧
    mapSum (EnhancedBlockchain.updateBalances s blk).balances
      = mapSum s.balances
        + ((blk.totalPriorityFees + blk.blockReward : Nat) : Int)
        + (blk.transactions.map (fun tx => (tx.value : Int) - (tx.totalCost : Int))).sum := by
  obtain ⟨hnd, hsum⟩ := balance_fold blk.transactions s.balances h
  refine ⟨NodupKeys_jsSet _ _ _ hnd, rfl, ?_⟩
  show mapSum (jsSet _ blk.minerAddress _) = _
  rw [mapSum_adjust _ _ _ hnd, hsum]
  simp only [EnhancedBlock.totalMinerReward]
  push_cast
  ring

theorem eminedCandidate_fields (env : HashEnv) (s : EnhancedBlockchain)
    (minerAddress : String) (now : Nat) :
    (EnhancedBlockchain.minedCandidate env s minerAddress now).2.transactions
      = (EnhancedBlockchain.candidateBlock env s minerAddress now).transactions ∧
    (EnhancedBlockchain.minedCandidate env s minerAddress now).2.totalBaseFees
      = (EnhancedBlockchain.candidateBlock env s minerAddress now).totalBaseFees ∧
    (EnhancedBlockchain.minedCandidate env s minerAddress now).2.totalPriorityFees
      = (EnhancedBlockchain.candidateBlock env s minerAddress now).totalPriorityFees ∧
    (EnhancedBlockchain.minedCandidate env s minerAddress now).2.blockReward
      = (EnhancedBlockchain.candidateBlock env s minerAddress now).blockReward :=
  eblock_mine_fields env (EnhancedBlockchain.candidateBlock env s minerAddress now) 1000000

theorem ecandidate_fee_sums (env : HashEnv) (s : EnhancedBlockchain)
    (minerAddress : String) (now : Nat) :
    (EnhancedBlockchain.candidateBlock env s minerAddress now).totalBaseFees
      = ((EnhancedBlockchain.candidateBlock env s minerAddress now).transactions.map
          (fun tx => tx.baseFee)).sum ∧
    (EnhancedBlockchain.candidateBlock env s minerAddress now).totalPriorityFees
      = ((EnhancedBlockchain.candidateBlock env s minerAddress now).transactions.map
          (fun tx => tx.priorityFee)).sum ∧
    (EnhancedBlockchain.candidateBlock env s minerAddress now).blockReward = 50 :=
  ebuild_fee_sums env s.chain.length s.getLatestBlock.hash
    (s.pendingTransactions.take s.maxTransactionsPerBlock) now s.difficulty minerAddress

theorem emineBlock_conservation (env : HashEnv) (s : EnhancedBlockchain)
    (minerAddress : String) (now : Nat) (h : NodupKeys s.balances) :
    NodupKeys ((EnhancedBlockchain.mineBlock env s minerAddress now).2).balances ∧
    mapSum ((EnhancedBlockchain.mineBlock env s minerAddress now).2).balances
      = mapSum s.balances
        + 50 * ((((EnhancedBlockchain.mineBlock env s minerAddress now).2).chain.length : Int)
            - (s.chain.length : Int))
        - ((EnhancedBlockchain.chainBurn
              ((EnhancedBlockchain.mineBlock env s minerAddress now).2).chain : Int)
            - (EnhancedBlockchain.chainBurn s.chain : Int)) := by
  by_cases hm : (EnhancedBlockchain.minedCandidate env s minerAddress now).1 = true
  · simp only [EnhancedBlockchain.mineBlock, hm, if_true,
      EnhancedBlockchain.updateEnhancedFeatures]
    set blk := (EnhancedBlockchain.minedCandidate env s minerAddress now).2 with hblk
    obtain ⟨hnd, hchain, hsum⟩ :=
      updateBalances_conservation { s with chain := s.chain ++ [blk] } blk h
    have hmf := eminedCandidate_fields env s minerAddress now
    have hcand := ecandidate_fee_sums env s minerAddress now
    have hbase : blk.totalBaseFees = ((blk.transactions).map (fun tx => tx.baseFee)).sum := by
      rw [hblk, hmf.2.1, hmf.1]
      exact hcand.1
    have hprio : blk.totalPriorityFees
        = ((blk.transactions).map (fun tx => tx.priorityFee)).sum := by
      rw [hblk, hmf.2.2.1, hmf.1]
      exact hcand.2.1
    have hrew : blk.blockReward = 50 := by
      rw [hblk, hmf.2.2.2]
      exact hcand.2.2
    refine ⟨hnd, ?_⟩
    rw [hsum, value_sub_cost_sum, ← hbase, ← hprio, hrew, hchain]
    rw [chainBurn_append]
    simp only [List.length_append, List.length_cons, List.length_nil]
    push_cast
    ring
  · have hres : EnhancedBlockchain.mineBlock env s minerAddress now = (none, s) := by
      simp [EnhancedBlockchain.mineBlock, hm]
    rw [hres]
    exact ⟨h, by ring⟩

theorem runOps_conservation (env : HashEnv) (ops : List EnhancedBlockchain.LedgerOp) :
    ∀ (s : EnhancedBlockchain), NodupKeys s.balances →
      NodupKeys (EnhancedBlockchain.runOps env ops s).balances ∧
      mapSum (EnhancedBlockchain.runOps env ops s).balances
        = mapSum s.balances
          + 50 * (((EnhancedBlockchain.runOps env ops s).chain.length : Int)
              - (s.chain.length : Int))
          - ((EnhancedBlockchain.chainBurn (EnhancedBlockchain.runOps env ops s).chain : Int)
              - (EnhancedBlockchain.chainBurn s.chain : Int)) := by
  induction ops with
  | nil =>
    intro s h
    have hnil : EnhancedBlockchain.runOps env [] s = s := rfl
    rw [hnil]
    exact ⟨h, by ring⟩
  | cons op t ih =>
    intro s h
    cases op with
    | submit tx =>
      have hframe := eaddTransaction_frame env s tx
      have h' : NodupKeys ((EnhancedBlockchain.addTransaction env s tx).2).balances := by
        rw [hframe.1]; exact h
      obtain ⟨ha, hb⟩ := ih _ h'
      have hrun : EnhancedBlockchain.runOps env (EnhancedBlockchain.LedgerOp.submit tx :: t) s
          = EnhancedBlockchain.runOps env t ((EnhancedBlockchain.addTransaction env s tx).2) := rfl
      rw [hrun]
      refine ⟨ha, ?_⟩
      rw [hb, hframe.1, hframe.2]
    | mine minerAddress now =>
      have hmc := emineBlock_conservation env s minerAddress now h
      obtain ⟨ha, hb⟩ := ih _ hmc.1
      have hrun : EnhancedBlockchain.runOps env
            (EnhancedBlockchain.LedgerOp.mine minerAddress now :: t) s
          = EnhancedBlockchain.runOps env t
              ((EnhancedBlockchain.mineBlock env s minerAddress now).2) := rfl
      rw [hrun]
      refine ⟨ha, ?_⟩
      rw [hb, hmc.2]
      ring

theorem seedfold_frame (env : HashEnv) (seed : List EnhancedTransaction) :
    ∀ (st : EnhancedBlockchain),
      (seed.foldl (fun st tx => (EnhancedBlockchain.addTransaction env st tx).2) st).balances
        = st.balances ∧
      (seed.foldl (fun st tx => (EnhancedBlockchain.addTransaction env st tx).2) st).chain
        = st.chain := by
  induction seed with
  | nil => intro st; exact ⟨rfl, rfl⟩
  | cons tx t ih =>
    intro st
    have hframe := eaddTransaction_frame env st tx
    obtain ⟨h1, h2⟩ := ih ((EnhancedBlockchain.addTransaction env st tx).2)
    exact ⟨by rw [List.foldl_cons, h1, hframe.1], by rw [List.foldl_cons, h2, hframe.2]⟩

theorem init_balances (env : HashEnv) (difficulty blockReward initialBalance now : Nat)
    (seed : List EnhancedTransaction) :
    (EnhancedBlockchain.init env difficulty blockReward initialBalance now seed).balances
      = EnhancedBlockchain.walletAddresses.map (fun a => (a, (initialBalance : Int))) := by
  simp only [EnhancedBlockchain.init]
  rw [(seedfold_frame env seed _).1]

theorem init_chain (env : HashEnv) (difficulty blockReward initialBalance now : Nat)
    (seed : List EnhancedTransaction) :
    (EnhancedBlockchain.init env difficulty blockReward initialBalance now seed).chain
      = [(EnhancedBlock.mine env
          (EnhancedBlock.build env 0 (some "0") [] now difficulty systemAddress) 1000000).2] := by
  simp only [EnhancedBlockchain.init]
  rw [(seedfold_frame env seed _).2]

/-- C1: value is conserved across every block application of the enhanced
ledger — after any sequence of submissions and mining attempts starting
from a fresh ledger, the sum of all balances equals the initial supply
(ten wallets of `initialBalance`) plus 50 per mined block minus the base
fees burned by the blocks on the chain. -/
theorem C1_value_conservation (env : HashEnv)
    (difficulty blockReward initialBalance now : Nat)
    (seed : List EnhancedTransaction) (ops : List EnhancedBlockchain.LedgerOp) :
    mapSum (EnhancedBlockchain.runOps env ops
        (EnhancedBlockchain.init env difficulty blockReward initialBalance now seed)).balances
      = 10 * (initialBalance : Int)
        + 50 * (((EnhancedBlockchain.runOps env ops
            (EnhancedBlockchain.init env difficulty blockReward initialBalance now
              seed)).chain.length : Int) - 1)
        - (EnhancedBlockchain.chainBurn (EnhancedBlockchain.runOps env ops
            (EnhancedBlockchain.init env difficulty blockReward initialBalance now
              seed)).chain : Int) := by
  set s0 := EnhancedBlockchain.init env difficulty blockReward initialBalance now seed with hs0
  have hbal : s0.balances
      = EnhancedBlockchain.walletAddresses.map (fun a => (a, (initialBalance : Int))) :=
    init_balances env difficulty blockReward initialBalance now seed
  have hnd : NodupKeys s0.balances := by
    rw [hbal]
    simp only [NodupKeys, jsKeys, List.map_map]
    have hcomp : (Prod.fst ∘ fun a : String => (a, (initialBalance : Int)))
        = fun a : String => a := rfl
    rw [hcomp]
    simp only [List.map_id']
    decide
  have hsum0 : mapSum s0.balances = 10 * (initialBalance : Int) := by
    rw [hbal]
    simp [mapSum, EnhancedBlockchain.walletAddresses]
    ring
  have hchain0 := init_chain env difficulty blockReward initialBalance now seed
  have hlen0 : s0.chain.length = 1 := by rw [hchain0]; rfl
  have hburn0 : EnhancedBlockchain.chainBurn s0.chain = 0 := by
    rw [hchain0]
    show EnhancedBlockchain.chainBurn [(EnhancedBlock.mine env _ 1000000).2] = 0
    simp only [EnhancedBlockchain.chainBurn, List.map, List.sum_cons, List.sum_nil]
    rw [(eblock_mine_fields env _ 1000000).2.1]
    rfl
  obtain ⟨_, hsum⟩ := runOps_conservation env ops s0 hnd
  rw [hsum, hsum0, hlen0, hburn0]
  push_cast
  ring
